import Mathlib

/-!
Verification of `inline-resources.js`, a build utility that rewrites compiled
Angular-style output: it inlines external template and stylesheet references
and strips the legacy `moduleId: module.id` marker, resolving resource paths
through a tsconfig (`extends`-chain) reader.

The JavaScript source is shallowly embedded here:
* the three regex-driven rewrite passes (`inlineTemplate`, `inlineStyle`,
  `removeModuleId`) are compiled into deterministic character scanners that
  implement exactly the matching behaviour of the source regexes
  (`/templateUrl:\s*'([^']+?\.html)'/g`, `/styleUrls:\s*(\[[\s\S]*?\])/gm`,
  `/\s*moduleId:\s*module\.id\s*,?\s*/gm`, `/([\n\r]\s*)+/gm`, `/"/g`);
* file systems are explicit functions from paths to optional contents, and
  fallible reads return `Except`;
* the tsconfig reader (`readTsconfig`) threads an explicit `NodeState`
  holding the on-disk documents and Node's `require` module cache;
* `path.resolve` / `path.dirname` / `path.relative` / `path.join` are
  embedded for absolute slash-separated paths.

Scanners use a fuel argument that only decreases when a match is consumed
(so all recursion is structural and everything evaluates by `decide`/`rfl`);
the public wrappers pass the content length as fuel, which is always enough
because every match consumes at least one character.
-/

namespace InlineRes

/-- JavaScript's `\s` character class (as matched by `\s` in the source
regexes): ASCII whitespace plus the Unicode space separators, line
separators and the BOM. -/
def isJsSpace (c : Char) : Bool :=
  c = ' ' || c = '\t' || c = '\n' || c = '\r' || c = '\x0b' || c = '\x0c' ||
  c = '\u00A0' || c = '\u1680' || (0x2000 ≤ c.toNat && c.toNat ≤ 0x200A) ||
  c = '\u2028' || c = '\u2029' || c = '\u202F' || c = '\u205F' ||
  c = '\u3000' || c = '\uFEFF'

/-- A line-break character, the class `[\n\r]` of the source regex
`/([\n\r]\s*)+/gm` used to shorten templates and styles. -/
def isBreakChar (c : Char) : Bool :=
  c = '\n' || c = '\r'

/-- Greedily consume `\s*`: drop the longest all-whitespace prefix. -/
def eatWs : List Char → List Char
  | [] => []
  | c :: cs => if isJsSpace c then eatWs cs else c :: cs

/-- Match a literal string at the head of the input; on success return the
rest of the input after the literal. -/
def matchLit : List Char → List Char → Option (List Char)
  | [], cs => some cs
  | _ :: _, [] => none
  | l :: ls, c :: cs => if c = l then matchLit ls cs else none

/-- Does `pat` occur as a contiguous substring (at any position)? -/
def containsSub (pat : List Char) : List Char → Bool
  | [] => (matchLit pat []).isSome
  | c :: cs => (matchLit pat (c :: cs)).isSome || containsSub pat cs

/-! ## The `([\n\r]\s*)+` collapse and `"` escaping (template/style shortening)

`inlineTemplate` and `inlineStyle` both shorten a resource file's content by
`content.replace(/([\n\r]\s*)+/gm, ' ').replace(/"/g, '\\"')`.

The first regex matches, at each position, a line-break character followed
greedily by all subsequent whitespace (further iterations of the group can
never match because the greedy `\s*` already consumed every following
whitespace character, including line breaks).  `collapseBreakRuns` compiles
this: the boolean state is true while the scanner is inside the `\s*` tail
of a match. -/

/-- The `.replace(/([\n\r]\s*)+/gm, ' ')` step: each line-break character
together with all whitespace following it becomes a single space; the run
of whitespace is skipped while the state is `true`. -/
def collapseBreakRuns : Bool → List Char → List Char
  | _, [] => []
  | true, c :: cs =>
    if isJsSpace c then collapseBreakRuns true cs
    else c :: collapseBreakRuns false cs
  | false, c :: cs =>
    if isBreakChar c then ' ' :: collapseBreakRuns true cs
    else c :: collapseBreakRuns false cs

/-- The `.replace(/"/g, '\\"')` step: escape every double quote. -/
def escapeQuotes : List Char → List Char
  | [] => []
  | c :: cs =>
    if c = '"' then '\\' :: '"' :: escapeQuotes cs
    else c :: escapeQuotes cs

/-- The shortening pipeline applied to a resource file's content in both
`inlineTemplate` (local `shortenedTemplate`) and `inlineStyle` (local
`shortenedStyle`): collapse break-led whitespace runs, then escape quotes. -/
def shortenResource (cs : List Char) : List Char :=
  escapeQuotes (collapseBreakRuns false cs)

/-- String-level version of `shortenResource`. -/
def shortenResourceS (s : String) : String :=
  String.mk (shortenResource s.toList)

/-! Maximal-whitespace-run views of the collapse step, used to state claims
about it in the spec's own vocabulary. -/

/-- Apply `f` to every maximal run of whitespace characters, leaving all
other characters unchanged.  The first argument accumulates the current
whitespace run in reverse. -/
def wsRunMap (f : List Char → List Char) : List Char → List Char → List Char
  | acc, [] => f acc.reverse
  | acc, c :: cs =>
    if isJsSpace c then wsRunMap f (c :: acc) cs
    else f acc.reverse ++ c :: wsRunMap f [] cs

/-- Modelled from the claim's words (C1): collapse every maximal run of
whitespace that contains a line break to a single space. -/
def claimCollapseWs (cs : List Char) : List Char :=
  wsRunMap (fun r => if r.any isBreakChar then [' '] else r) [] cs

/-- The amended collapse rule, stated run-wise: in every maximal run of
whitespace that contains a line break, the part from the first line break
onwards becomes a single space, and the whitespace before the first line
break is preserved. -/
def amendedCollapseWs (cs : List Char) : List Char :=
  wsRunMap
    (fun r =>
      if r.any isBreakChar then r.takeWhile (fun c => !isBreakChar c) ++ [' ']
      else r) [] cs

/-! ## `removeModuleId`: `content.replace(/\s*moduleId:\s*module\.id\s*,?\s*/gm, '')` -/

/-- Try to match `/\s*moduleId:\s*module\.id\s*,?\s*/` at the head of the
input; on success return the input after the match.  All the regex's
quantifiers are deterministic here: the greedy `\s*` runs stop at the
non-whitespace literals and `,?` takes a comma exactly when one is next
(`commaTailOpt` is the `,?\s*` tail of the pattern; if no comma follows,
the final `\s*` matches nothing because the preceding `\s*` already
consumed all whitespace). -/
def commaTailOpt (cs : List Char) : List Char :=
  match cs with
  | ',' :: cs3 => eatWs cs3
  | cs3 => cs3

def tryMatchModuleId (cs : List Char) : Option (List Char) :=
  (matchLit "moduleId:".toList (eatWs cs)).bind fun cs1 =>
    (matchLit "module.id".toList (eatWs cs1)).bind fun cs2 =>
      some (commaTailOpt (eatWs cs2))

/-- One left-to-right scan of the global replace: at each position, if the
pattern matches, hand the rest of the input to `onMatch` (the replacement
is empty, so a match contributes nothing to the output); otherwise copy one
character. -/
def rmScan (onMatch : List Char → List Char) : List Char → List Char
  | [] => []
  | c :: cs =>
    match tryMatchModuleId (c :: cs) with
    | some rest => onMatch rest
    | none => c :: rmScan onMatch cs

/-- The global replace: `fuel` bounds the number of matches consumed (each
match consumes at least the `moduleId:` literal, so `content.length` is
always enough fuel). -/
def rmRun : Nat → List Char → List Char
  | 0, cs => cs
  | fuel + 1, cs => rmScan (rmRun fuel) cs

/-- `removeModuleId(content)` from the source: remove every match of
`/\s*moduleId:\s*module\.id\s*,?\s*/gm`. -/
def removeModuleId (content : String) : String :=
  String.mk (rmRun content.toList.length content.toList)

/-! ## `inlineTemplate`: `content.replace(/templateUrl:\s*'([^']+?\.html)'/g, ...)` -/

/-- The lazy part `([^']+?\.html)'` of the template regex: `acc` holds (in
reverse) the characters consumed so far by `[^']+?`.  Lazy matching tries to
close the group at the shortest length, so before consuming a further
character we first test whether `.html'` follows (only once at least one
character has been consumed, because of `+?`); a quote can never be consumed
by `[^']`, so reaching one fails the whole match attempt. -/
def lazyHtml : List Char → List Char → Option (List Char × List Char)
  | acc, cs =>
    match (if acc.isEmpty then none else matchLit ".html'".toList cs) with
    | some rest => some (acc.reverse ++ ".html".toList, rest)
    | none =>
      match cs with
      | [] => none
      | c :: cs' => if c = '\'' then none else lazyHtml (c :: acc) cs'

/-- Try to match `/templateUrl:\s*'([^']+?\.html)'/` at the head of the
input; on success return the captured url (group 1) and the rest of the
input after the match (`quoteTail` is the opening-quote-then-lazy-group
part of the pattern). -/
def quoteTail (cs : List Char) : Option (List Char × List Char) :=
  match cs with
  | '\'' :: cs2 => lazyHtml [] cs2
  | _ => none

def tryMatchTemplate (cs : List Char) : Option (List Char × List Char) :=
  (matchLit "templateUrl:".toList cs).bind fun cs1 => quoteTail (eatWs cs1)

/-- A synchronous file read (`fs.readFileSync`): the file system is a map
from paths to optional contents and a missing file throws. -/
def readFileSyncE (fs : String → Option String) (p : String) : Except Unit String :=
  match fs p with
  | some content => .ok content
  | none => .error ()

/-- Run the continuation on the value of an optional intermediate result;
`none` models a thrown exception (`eval` failing). -/
def obindE {α β : Type} (o : Option α) (f : α → Except Unit β) : Except Unit β :=
  match o with
  | some a => f a
  | none => .error ()

/-- One left-to-right scan for the template replace.  A match at the current
position is handed to `onMatch` together with its captured url; a thrown
file-read error aborts the whole replace, as in the source. -/
def tplScan (onMatch : List Char → List Char → Except Unit (List Char)) :
    List Char → Except Unit (List Char)
  | [] => .ok []
  | c :: cs =>
    match tryMatchTemplate (c :: cs) with
    | some (url, rest) => onMatch url rest
    | none => (tplScan onMatch cs).map (fun out => c :: out)

/-- The global template replace.  For each match the replacement is
`template: "<shortened file content>"` where the file named by the captured
url is resolved by `urlResolver` and read from `fs`. -/
def tplRun (urlResolver : String → String) (fs : String → Option String) :
    Nat → List Char → Except Unit (List Char)
  | 0, cs => .ok cs
  | fuel + 1, cs =>
    tplScan
      (fun url rest =>
        (readFileSyncE fs (urlResolver (String.mk url))).bind fun fileContent =>
          (tplRun urlResolver fs fuel rest).bind fun out =>
            .ok ("template: \"".toList ++ shortenResource fileContent.toList
              ++ '"' :: out))
      cs

/-- `inlineTemplate(content, urlResolver)` from the source.  The ambient
`fs` module is passed explicitly. -/
def inlineTemplate (content : String) (urlResolver : String → String)
    (fs : String → Option String) : Except Unit String :=
  (tplRun urlResolver fs content.toList.length content.toList).map String.mk

/-! ## `inlineStyle`: `content.replace(/styleUrls:\s*(\[[\s\S]*?\])/gm, ...)` -/

/-- The lazy part `[\s\S]*?\]` of the style regex: collect the shortest run
of arbitrary characters up to the first `]`.  `acc` holds the collected
characters in reverse; if no `]` follows, the whole match attempt fails. -/
def lazyBracket : List Char → List Char → Option (List Char × List Char)
  | _, [] => none
  | acc, c :: cs =>
    if c = ']' then some (acc.reverse, cs) else lazyBracket (c :: acc) cs

/-- Try to match `/styleUrls:\s*(\[[\s\S]*?\])/` at the head of the input;
on success return the inside of the captured bracketed array literal
(group 1 minus its brackets) and the rest of the input after the match
(`bracketTail` is the opening-bracket-then-lazy-group part). -/
def bracketTail (cs : List Char) : Option (List Char × List Char) :=
  match cs with
  | '[' :: cs2 => lazyBracket [] cs2
  | _ => none

def tryMatchStyle (cs : List Char) : Option (List Char × List Char) :=
  (matchLit "styleUrls:".toList cs).bind fun cs1 => bracketTail (eatWs cs1)

/-- Parser state for the array-literal evaluation: between elements
(`ready`, which also accepts the end of the array), inside a quoted string
with delimiter `q` (`inStr`), right after a backslash inside a string
(`esc`), or after a closed string waiting for a comma or the end
(`afterStr`).  `parsed` accumulates completed elements in reverse. -/
inductive ArrSt where
  | ready (parsed : List String)
  | inStr (q : Char) (acc : List Char) (parsed : List String)
  | esc (q : Char) (acc : List Char) (parsed : List String)
  | afterStr (parsed : List String)

/-- A JavaScript string escape inside a quoted literal (the escapes that can
occur in resource-path literals; `\n`, `\t`, `\r` and the
identity escapes such as `\'`, `\"`, `\\`). -/
def unescapeChar (c : Char) : Char :=
  if c = 'n' then '\n' else if c = 't' then '\t' else if c = 'r' then '\r' else c

/-- The `eval(styleUrls)` step, modelled as an explicit parser for array
literals of quoted strings (the only shape the tool is fed: `styleUrls`
arrays of path literals).  Returns the parsed strings in source order;
`none` models `eval` throwing on text that is not such an array literal.
The input is the text between the captured brackets. -/
def parseArrOn : ArrSt → List Char → Option (List String)
  | .ready parsed, [] => some parsed.reverse
  | .ready parsed, c :: cs =>
    if isJsSpace c then parseArrOn (.ready parsed) cs
    else if c = '\'' || c = '"' then parseArrOn (.inStr c [] parsed) cs
    else none
  | .inStr _ _ _, [] => none
  | .inStr q acc parsed, c :: cs =>
    if c = q then parseArrOn (.afterStr (String.mk acc.reverse :: parsed)) cs
    else if c = '\\' then parseArrOn (.esc q acc parsed) cs
    else parseArrOn (.inStr q (c :: acc) parsed) cs
  | .esc _ _ _, [] => none
  | .esc q acc parsed, c :: cs => parseArrOn (.inStr q (unescapeChar c :: acc) parsed) cs
  | .afterStr parsed, [] => some parsed.reverse
  | .afterStr parsed, c :: cs =>
    if isJsSpace c then parseArrOn (.afterStr parsed) cs
    else if c = ',' then parseArrOn (.ready parsed) cs
    else none

/-- Parse the text of a `styleUrls` array literal (without the enclosing
brackets) into its list of url strings. -/
def parseArrayLit (inner : List Char) : Option (List String) :=
  parseArrOn (.ready []) inner

/-- Read and shorten each style url in order (the `urls.map(...)` body):
resolve the url, read the file, shorten its content and wrap it in double
quotes.  A failing read throws, aborting the replace. -/
def readStyles (urlResolver : String → String) (fs : String → Option String) :
    List String → Except Unit (List (List Char))
  | [] => .ok []
  | u :: us =>
    (readFileSyncE fs (urlResolver u)).bind fun fileContent =>
      (readStyles urlResolver fs us).map fun rest =>
        ('"' :: shortenResource fileContent.toList ++ ['"']) :: rest

/-- `.join(sep)` on character lists. -/
def joinSep (sep : List Char) : List (List Char) → List Char
  | [] => []
  | [x] => x
  | x :: xs => x ++ sep ++ joinSep sep xs

/-- One left-to-right scan for the style replace. -/
def styScan (onMatch : List Char → List Char → Except Unit (List Char)) :
    List Char → Except Unit (List Char)
  | [] => .ok []
  | c :: cs =>
    match tryMatchStyle (c :: cs) with
    | some (inner, rest) => onMatch inner rest
    | none => (styScan onMatch cs).map (fun out => c :: out)

/-- The global style replace.  For each match the captured array literal is
evaluated to a url list, each url's file is read and shortened, and the
declaration is replaced by `styles: [` + the quoted contents joined with
`,\n` + `]`. -/
def styRun (urlResolver : String → String) (fs : String → Option String) :
    Nat → List Char → Except Unit (List Char)
  | 0, cs => .ok cs
  | fuel + 1, cs =>
    styScan
      (fun inner rest =>
        (obindE (parseArrayLit inner)) fun urls =>
          (readStyles urlResolver fs urls).bind fun quoted =>
            (styRun urlResolver fs fuel rest).bind fun out =>
              .ok ("styles: [".toList ++ joinSep ",\n".toList quoted ++ ']' :: out))
      cs

/-- `inlineStyle(content, urlResolver)` from the source.  The ambient `fs`
module is passed explicitly. -/
def inlineStyle (content : String) (urlResolver : String → String)
    (fs : String → Option String) : Except Unit String :=
  (styRun urlResolver fs content.toList.length content.toList).map String.mk

/-! ## The pipeline `inlineResourcesFromString` -/

/-- `inlineResourcesFromString(content, urlResolver)`: curry the content
through `inlineTemplate`, `inlineStyle` and `removeModuleId` in that order
(the source's `reduce`; `removeModuleId` ignores the resolver argument). -/
def inlineResourcesFromString (content : String) (urlResolver : String → String)
    (fs : String → Option String) : Except Unit String :=
  (inlineTemplate content urlResolver fs).bind fun c1 =>
    (inlineStyle c1 urlResolver fs).map fun c2 => removeModuleId c2

/-! Decidable "the pattern matches somewhere" predicates, one per pass. -/

/-- Does `/templateUrl:\s*'([^']+?\.html)'/` match at some position? -/
def anyTemplateMatch : List Char → Bool
  | [] => (tryMatchTemplate []).isSome
  | c :: cs => (tryMatchTemplate (c :: cs)).isSome || anyTemplateMatch cs

/-- Does `/styleUrls:\s*(\[[\s\S]*?\])/` match at some position? -/
def anyStyleMatch : List Char → Bool
  | [] => (tryMatchStyle []).isSome
  | c :: cs => (tryMatchStyle (c :: cs)).isSome || anyStyleMatch cs

/-- Does `/\s*moduleId:\s*module\.id\s*,?\s*/` match at some position? -/
def anyModuleIdMatch : List Char → Bool
  | [] => (tryMatchModuleId []).isSome
  | c :: cs => (tryMatchModuleId (c :: cs)).isSome || anyModuleIdMatch cs

/-- A `styleUrls` array literal as it appears in source text:
`['u1', 'u2', ...]` (single-quoted elements, comma-space separated). -/
def renderStyleUrls (urls : List String) : String :=
  String.mk ('[' ::
    (joinSep ", ".toList (urls.map (fun u => '\'' :: (u.toList ++ ['\'']))) ++ [']']))

/-- Characters allowed in a style url for the inlining to be exact: no
quote (which would end the string literal early), no backslash (escape)
and no closing bracket (which would end the lazily captured group). -/
def urlCharsOk (u : String) : Bool :=
  u.toList.all (fun c => !(c = '\'') && !(c = '\\') && !(c = ']'))

/-! ## Paths (`path.resolve` / `path.dirname` / `path.relative` / `path.join`)

Embedded for slash-separated paths.  The tool only ever feeds these helpers
absolute directories (tsconfig directories and the resolved `rootDir` /
`outDir`), so the embeddings are exact on the inputs that occur. -/

/-- Split on `/`, dropping empty components. -/
def splitSlashGo (acc : List Char) : List Char → List String
  | [] => if acc.isEmpty then [] else [String.mk acc.reverse]
  | c :: cs =>
    if c = '/' then
      if acc.isEmpty then splitSlashGo [] cs
      else String.mk acc.reverse :: splitSlashGo [] cs
    else splitSlashGo (c :: acc) cs

/-- The components of a path. -/
def splitSlash (s : String) : List String := splitSlashGo [] s.toList

/-- Join components with `/`. -/
def joinComps : List String → String
  | [] => ""
  | [x] => x
  | x :: xs => x ++ "/" ++ joinComps xs

/-- Normalize components of an absolute path: drop `.`, let `..` pop one
component (`..` at the root stays at the root, as in Node).  The first
argument is the stack of kept components, in reverse. -/
def normComps (stack : List String) : List String → List String
  | [] => stack.reverse
  | c :: cs =>
    if c = "." then normComps stack cs
    else if c = ".." then
      match stack with
      | [] => normComps [] cs
      | _ :: stack' => normComps stack' cs
    else normComps (c :: stack) cs

/-- Does the path start with `/`? -/
def isAbsP (p : String) : Bool :=
  match p.toList with
  | '/' :: _ => true
  | _ => false

/-- Normalize an absolute path. -/
def normAbs (p : String) : String :=
  "/" ++ joinComps (normComps [] (splitSlash p))

/-- `path.resolve(base, p)` for an absolute `base`: an absolute `p` wins
(normalized), otherwise `p` is joined onto `base` and normalized. -/
def resolveP (base p : String) : String :=
  if isAbsP p then normAbs p else normAbs (base ++ "/" ++ p)

/-- `path.dirname(p)` for an absolute `p`: drop the final component. -/
def dirnameP (p : String) : String :=
  match (splitSlash p).dropLast with
  | [] => "/"
  | comps => "/" ++ joinComps comps

/-- Drop the longest common prefix of two component lists. -/
def dropCommon : List String → List String → List String × List String
  | a :: as_, b :: bs =>
    if a = b then dropCommon as_ bs else (a :: as_, b :: bs)
  | as_, bs => (as_, bs)

/-- `path.relative(from, to)` for absolute paths: pop out of the remaining
`from` components with `..`, then descend into the remaining `to`
components.  `""` when the paths are equal, as in Node. -/
def relativeP (fromP toP : String) : String :=
  let (fa, ta) := dropCommon (splitSlash fromP) (splitSlash toP)
  joinComps (fa.map (fun _ => "..") ++ ta)

/-- Normalize the components of a relative path: unmatched `..` survive at
the front instead of being dropped. -/
def normCompsRel (stack : List String) : List String → List String
  | [] => stack.reverse
  | c :: cs =>
    if c = "." then normCompsRel stack cs
    else if c = ".." then
      match stack with
      | [] => normCompsRel [".."] cs
      | top :: stack' =>
        if top = ".." then normCompsRel (".." :: top :: stack') cs
        else normCompsRel stack' cs
    else normCompsRel (c :: stack) cs

/-- `path.join(parts...)`: concatenate the non-empty parts with `/` and
normalize; the result is absolute iff the first part was. -/
def joinP (parts : List String) : String :=
  let s := joinComps (parts.filter (fun p => p ≠ ""))
  if isAbsP s then normAbs s
  else joinComps (normCompsRel [] (splitSlash s))

/-! ## `readTsconfig`: the extends-chain configuration reader

The source loads each tsconfig with Node's
`require(path.resolve(__dirname, tsconfigPath))`.  `require` resolves the
path, consults the per-process module cache, and only reads and parses the
file on a cache miss; the returned object is the cached object itself, and
the source then mutates it (defaults `compilerOptions`, merges the parent's
options over an `extends` chain, and resolves `rootDir`/`outDir` to
absolute paths), so the cache ends up holding the processed document.
`NodeState` makes the disk and that cache explicit; the in-place mutation is
modelled by re-inserting the processed document under the same path at the
end of `readTsconfig` (cache lookups take the most recent insertion).

A document that is missing, or whose text does not parse, is modelled as
`none` on disk: `require` throws in either case, and the model's
`.error ()` stands for that exception.  `readTsconfig` recurses on the
`extends` chain; the fuel bounds the chain depth (the real code overflows
the stack on a cyclic chain, which the model renders as `.error ()`). -/

/-- A parsed tsconfig document: the `extends` reference and the
`compilerOptions` object, as an association list from option names to
(string) values.  Other fields of the document are not consulted by the
tool and are omitted. -/
structure Tsconfig where
  ext : Option String
  compilerOptions : Option (List (String × String))
deriving DecidableEq

/-- The state `require` sees: the documents on disk and the module cache. -/
structure NodeState where
  disk : String → Option Tsconfig
  cache : List (String × Tsconfig)

/-- First binding of a key in an association list. -/
def alookup {α : Type} : List (String × α) → String → Option α
  | [], _ => none
  | (k, v) :: rest, key => if k = key then some v else alookup rest key

/-- `require(p)` for an already-resolved absolute path `p`: return the
cached module if present, otherwise read and parse from disk and cache the
result; a missing or unparseable file throws. -/
def requireTs (st : NodeState) (p : String) : Except Unit (Tsconfig × NodeState) :=
  match alookup st.cache p with
  | some t => .ok (t, st)
  | none =>
    match st.disk p with
    | some t => .ok (t, { st with cache := (p, t) :: st.cache })
    | none => .error ()

/-- `Object.assign({}, parent, child)` on `compilerOptions`: parent entries
come first with child values overriding shared keys, then the child's new
keys. -/
def mergeOptions (parent child : List (String × String)) : List (String × String) :=
  parent.map (fun kv =>
    match alookup child kv.1 with
    | some v => (kv.1, v)
    | none => kv)
  ++ child.filter (fun kv => (alookup parent kv.1).isNone)

/-- One iteration of the source's
`['outDir', 'rootDir'].forEach(prop => ...)`: if the option is present and
truthy (the empty string is falsy in JavaScript), resolve it against the
tsconfig's directory. -/
def resolveDirProp (tsConfigDir key : String)
    (opts : List (String × String)) : List (String × String) :=
  opts.map (fun kv =>
    if kv.1 = key && kv.2 ≠ "" then (kv.1, resolveP tsConfigDir kv.2) else kv)

/-- The tail of `readTsconfig` after the optional extends-merge: resolve
`outDir` then `rootDir` against the tsconfig's own directory, rebuild the
document, and record the in-place mutation of the cached module. -/
def finishTsconfig (st : NodeState) (requirePath tsConfigDir : String)
    (json : Tsconfig) (opts : List (String × String)) :
    Except Unit (Tsconfig × NodeState) :=
  let opts2 := resolveDirProp tsConfigDir "rootDir"
    (resolveDirProp tsConfigDir "outDir" opts)
  let result : Tsconfig := { json with compilerOptions := some opts2 }
  .ok (result, { st with cache := (requirePath, result) :: st.cache })

/-- The `__dirname` of the script.  All tsconfig paths handled in the claims
are absolute, and `path.resolve(__dirname, p) = p` for absolute `p`, so the
value never matters; `/` is used. -/
def scriptDir : String := "/"

/-- `readTsconfig(tsconfigPath)` from the source: require the document,
default `compilerOptions` to `{}`, recursively resolve a truthy `extends`
reference (relative to this document's directory) and merge the parent's
options under the child's, then resolve `outDir`/`rootDir` against this
document's directory. -/
def readTsconfig : Nat → NodeState → String → Except Unit (Tsconfig × NodeState)
  | 0, _, _ => .error ()
  | fuel + 1, st, tsconfigPath =>
    (requireTs st (resolveP scriptDir tsconfigPath)).bind fun js =>
      (js.1.ext).elim
        (finishTsconfig js.2 (resolveP scriptDir tsconfigPath) (dirnameP tsconfigPath)
          js.1 (js.1.compilerOptions.getD []))
        (fun e =>
          if e = "" then
            finishTsconfig js.2 (resolveP scriptDir tsconfigPath) (dirnameP tsconfigPath)
              js.1 (js.1.compilerOptions.getD [])
          else
            (readTsconfig fuel js.2 (resolveP (dirnameP tsconfigPath) e)).bind fun pr =>
              finishTsconfig pr.2 (resolveP scriptDir tsconfigPath) (dirnameP tsconfigPath)
                js.1 (mergeOptions (pr.1.compilerOptions.getD [])
                  (js.1.compilerOptions.getD [])))

/-! ## `inlineResources`: the per-file orchestration

For each file matched by `glob.sync(path.join(outDir, '**', '*.js'))`, the
source reads it, runs the pipeline with a per-file url resolver, writes the
result back, and attaches `.catch(err => console.error(...))` to the
per-file promise chain, so a failing file is logged and does not reject the
`Promise.all`.  The model enumerates candidate files explicitly (path plus
optional readable content — `none` models a failing read), takes a
`writeOk` predicate modelling write failures, and returns each matched
file's outcome. -/

/-- A compiled output file as the orchestration sees it: its path and its
content (`none` if reading it fails). -/
structure FileEntry where
  path : String
  content : Option String

/-- What became of one matched file: written back with the given content,
or failed (the error was caught and logged, the file left as it was). -/
inductive FileOutcome where
  | written : String → FileOutcome
  | failed : FileOutcome
deriving DecidableEq

/-- The per-file url resolver built in `inlineResources`:
`path.join(rootDir, path.relative(outDir, path.dirname(filePath)), url)`. -/
def mkUrlResolver (rootDir outDir filePath : String) : String → String :=
  fun url => joinP [rootDir, relativeP outDir (dirnameP filePath), url]

/-- One file's promise chain (`readFile → inlineResourcesFromString →
writeFile`, with `.catch` turning any failure into a logged skip). -/
def processFile (resourceFs : String → Option String) (writeOk : String → Bool)
    (rootDir outDir : String) (e : FileEntry) : FileOutcome :=
  match e.content with
  | none => .failed
  | some content =>
    match inlineResourcesFromString content (mkUrlResolver rootDir outDir e.path) resourceFs with
    | .error _ => .failed
    | .ok out => if writeOk e.path then .written out else .failed

/-- Does a path match the glob `<outDir>/**/*.js`? -/
def globMatch (outDir p : String) : Bool :=
  (matchLit (outDir ++ "/").toList p.toList).isSome
    && (matchLit ".js".toList.reverse p.toList.reverse).isSome

/-- `inlineResources(tsconfigPath)` from the source: resolve the tsconfig
(any exception there propagates — nothing is caught), glob the compiled
`.js` files under `outDir`, and process every matched file independently,
catching failures per file.  The result lists each matched file's outcome
in enumeration order. -/
def inlineResources (fuel : Nat) (st : NodeState)
    (resourceFs : String → Option String) (writeOk : String → Bool)
    (files : List FileEntry) (tsconfigPath : String) :
    Except Unit (List (String × FileOutcome)) :=
  (readTsconfig fuel st (resolveP scriptDir tsconfigPath)).map fun r =>
    let opts := r.1.compilerOptions.getD []
    let rootDir := (alookup opts "rootDir").getD ""
    let outDir := (alookup opts "outDir").getD ""
    (files.filter (fun f => globMatch outDir f.path)).map (fun f =>
      (f.path, processFile resourceFs writeOk rootDir outDir f))

/-! ## Concrete configurations used to check the tsconfig claims -/

/-- The spec's extends-example base config:
`{"compilerOptions": {"rootDir": "src", "outDir": "out"}}` at `/base.json`. -/
def extendsBase : Tsconfig := ⟨none, some [("rootDir", "src"), ("outDir", "out")]⟩

/-- The spec's extends-example child config:
`{"extends": "../base.json", "compilerOptions": {"outDir": "dist"}}` at
`/proj/tsconfig.json`. -/
def extendsChild : Tsconfig := ⟨some "../base.json", some [("outDir", "dist")]⟩

/-- The disk holding the two example configs. -/
def extendsDisk : String → Option Tsconfig := fun p =>
  if p = "/base.json" then some extendsBase
  else if p = "/proj/tsconfig.json" then some extendsChild
  else none

/-- A one-config disk whose `rootDir` is `a` (for the caching claim). -/
def cacheDisk0 : String → Option Tsconfig := fun p =>
  if p = "/t.json" then some ⟨none, some [("rootDir", "a")]⟩ else none

/-- The same path with changed on-disk content: `rootDir` is now `b`. -/
def cacheDisk1 : String → Option Tsconfig := fun p =>
  if p = "/t.json" then some ⟨none, some [("rootDir", "b")]⟩ else none

/-- A disk with one plain tsconfig (absolute `rootDir`/`outDir`), for the
orchestration claims. -/
def orchDisk : String → Option Tsconfig := fun p =>
  if p = "/tsconfig.json" then some ⟨none, some [("rootDir", "/src"), ("outDir", "/out")]⟩
  else none

end InlineRes


namespace InlineRes

/-! ## Generic lemmas about the scanner building blocks -/

theorem matchLit_eq_some_iff {lit cs r : List Char} :
    matchLit lit cs = some r ↔ cs = lit ++ r := by
  induction lit generalizing cs with
  | nil => simp [matchLit]
  | cons l ls ih =>
    cases cs with
    | nil => simp [matchLit]
    | cons c cs' =>
      by_cases h : c = l
      · subst h
        simp [matchLit, ih]
      · simp [matchLit, h, Ne.symm h]

theorem matchLit_self_append (lit rest : List Char) :
    matchLit lit (lit ++ rest) = some rest :=
  matchLit_eq_some_iff.mpr rfl

theorem eatWs_ws_append {w : List Char} (hw : w.all isJsSpace) (r : List Char) :
    eatWs (w ++ r) = eatWs r := by
  induction w with
  | nil => rfl
  | cons c w' ih =>
    simp only [List.all_cons, Bool.and_eq_true] at hw
    simp [eatWs, hw.1, ih hw.2]

theorem eatWs_cons_not_ws {c : Char} {cs : List Char} (h : isJsSpace c = false) :
    eatWs (c :: cs) = c :: cs := by
  simp [eatWs, h]

theorem eatWs_suffix (cs : List Char) : eatWs cs <:+ cs := by
  induction cs with
  | nil => simp [eatWs]
  | cons c cs' ih =>
    by_cases h : isJsSpace c
    · simpa [eatWs, h] using ih.trans (List.suffix_cons c cs')
    · simp [eatWs, h]

theorem eatWs_length_le (cs : List Char) : (eatWs cs).length ≤ cs.length :=
  (eatWs_suffix cs).length_le

theorem ebindOk {α β : Type} (a : α) (f : α → Except Unit β) :
    (Except.ok a : Except Unit α).bind f = f a := rfl

theorem ebindErr {α β : Type} (f : α → Except Unit β) :
    (Except.error () : Except Unit α).bind f = .error () := rfl

theorem emapOk {α β : Type} (g : α → β) (a : α) :
    Except.map g (Except.ok a : Except Unit α) = .ok (g a) := rfl

theorem emapErr {α β : Type} (g : α → β) :
    Except.map g (Except.error () : Except Unit α) = .error () := rfl

theorem obindESome {α β : Type} (a : α) (f : α → Except Unit β) :
    obindE (some a) f = f a := rfl

theorem obindENone {α β : Type} (f : α → Except Unit β) :
    obindE none f = .error () := rfl

theorem matchLit_length {lit cs r : List Char} (h : matchLit lit cs = some r) :
    cs.length = lit.length + r.length := by
  rw [matchLit_eq_some_iff.mp h, List.length_append]

/-! ## Identity of the passes on match-free content -/

theorem tplScan_id {onM : List Char → List Char → Except Unit (List Char)}
    {cs : List Char} (h : anyTemplateMatch cs = false) : tplScan onM cs = .ok cs := by
  induction cs with
  | nil => rfl
  | cons c cs' ih =>
    simp only [anyTemplateMatch, Bool.or_eq_false_iff] at h
    rw [tplScan]
    cases htm : tryMatchTemplate (c :: cs') with
    | some v => rw [htm] at h; simp at h
    | none => rw [ih h.2, emapOk]

theorem tplRun_id {res : String → String} {fs : String → Option String}
    {f : Nat} {cs : List Char} (h : anyTemplateMatch cs = false) :
    tplRun res fs f cs = .ok cs := by
  cases f with
  | zero => rfl
  | succ f' => exact tplScan_id h

theorem inlineTemplate_id {s : String} {res : String → String}
    {fs : String → Option String} (h : anyTemplateMatch s.toList = false) :
    inlineTemplate s res fs = .ok s := by
  obtain ⟨data⟩ := s
  simp only [inlineTemplate, tplRun_id h]
  rfl

theorem styScan_id {onM : List Char → List Char → Except Unit (List Char)}
    {cs : List Char} (h : anyStyleMatch cs = false) : styScan onM cs = .ok cs := by
  induction cs with
  | nil => rfl
  | cons c cs' ih =>
    simp only [anyStyleMatch, Bool.or_eq_false_iff] at h
    rw [styScan]
    cases htm : tryMatchStyle (c :: cs') with
    | some v => rw [htm] at h; simp at h
    | none => rw [ih h.2, emapOk]

theorem styRun_id {res : String → String} {fs : String → Option String}
    {f : Nat} {cs : List Char} (h : anyStyleMatch cs = false) :
    styRun res fs f cs = .ok cs := by
  cases f with
  | zero => rfl
  | succ f' => exact styScan_id h

theorem inlineStyle_id {s : String} {res : String → String}
    {fs : String → Option String} (h : anyStyleMatch s.toList = false) :
    inlineStyle s res fs = .ok s := by
  obtain ⟨data⟩ := s
  simp only [inlineStyle, styRun_id h]
  rfl

theorem rmScan_cons_eq (onM : List Char → List Char) (c : Char) (cs : List Char) :
    rmScan onM (c :: cs) =
      (match tryMatchModuleId (c :: cs) with
        | some rest => onM rest
        | none => c :: rmScan onM cs) := rfl

theorem rmScan_id {onM : List Char → List Char} {cs : List Char}
    (h : anyModuleIdMatch cs = false) : rmScan onM cs = cs := by
  induction cs with
  | nil => rfl
  | cons c cs' ih =>
    simp only [anyModuleIdMatch, Bool.or_eq_false_iff] at h
    rw [rmScan_cons_eq]
    cases htm : tryMatchModuleId (c :: cs') with
    | some v => rw [htm] at h; simp at h
    | none => rw [ih h.2]

theorem rmRun_id {f : Nat} {cs : List Char} (h : anyModuleIdMatch cs = false) :
    rmRun f cs = cs := by
  cases f with
  | zero => rfl
  | succ f' => exact rmScan_id h

theorem removeModuleId_id {s : String} (h : anyModuleIdMatch s.toList = false) :
    removeModuleId s = s := by
  obtain ⟨data⟩ := s
  simp only [removeModuleId, rmRun_id h]
  rfl

/-! ## Fine-grained lemmas for `tryMatchModuleId` and the `removeModuleId` scan -/

/-- Is the head (if any) not whitespace?  (`\s*` stops exactly here.) -/
def headNoWs : List Char → Bool
  | [] => true
  | c :: _ => !isJsSpace c

/-- Is the head (if any) neither whitespace nor a comma?  (Both `\s*` and
`,?` stop here.) -/
def headStops : List Char → Bool
  | [] => true
  | c :: _ => !isJsSpace c && !(c = ',')

theorem eatWs_ws_cons {c : Char} {cs : List Char} (h : isJsSpace c = true) :
    eatWs (c :: cs) = eatWs cs := by
  simp [eatWs, h]

theorem eatWs_noWs {r : List Char} (h : headNoWs r = true) : eatWs r = r := by
  cases r with
  | nil => rfl
  | cons c t =>
    simp only [headNoWs, Bool.not_eq_true'] at h
    exact eatWs_cons_not_ws h

theorem eatWs_ws_append_noWs {w r : List Char} (hw : w.all isJsSpace = true)
    (hr : headNoWs r = true) : eatWs (w ++ r) = r := by
  rw [eatWs_ws_append hw]
  exact eatWs_noWs hr

theorem bindSomeEq {α β : Type} (a : α) (f : α → Option β) :
    (some a).bind f = f a := rfl

theorem bindNoneEq {α β : Type} (f : α → Option β) :
    (none : Option α).bind f = none := rfl

theorem commaTailOpt_comma (cs : List Char) : commaTailOpt (',' :: cs) = eatWs cs := by
  simp [commaTailOpt]

theorem commaTailOpt_stops {cs : List Char} (h : headStops cs = true) :
    commaTailOpt cs = cs := by
  cases cs with
  | nil => rfl
  | cons c t =>
    simp only [headStops, Bool.and_eq_true, Bool.not_eq_true'] at h
    have hc : c ≠ ',' := of_decide_eq_false h.2
    unfold commaTailOpt
    split
    · rename_i cs3 heq
      injection heq with hh _
      exact absurd hh hc
    · rfl

theorem headNoWs_moduleId (X : List Char) :
    headNoWs ("moduleId:".toList ++ X) = true := rfl

theorem headNoWs_moduleDotId (X : List Char) :
    headNoWs ("module.id".toList ++ X) = true := rfl

theorem headNoWs_comma (X : List Char) : headNoWs (',' :: X) = true := rfl

/-- The module-id pattern matches a whitespace-padded
`moduleId: module.id` with a trailing comma, consuming all trailing
whitespace up to the next non-whitespace character. -/
theorem tryMatchModuleId_marker (w1 w2 w3 w4 r : List Char)
    (h1 : w1.all isJsSpace = true) (h2 : w2.all isJsSpace = true)
    (h3 : w3.all isJsSpace = true) (h4 : w4.all isJsSpace = true)
    (hr : headNoWs r = true) :
    tryMatchModuleId (w1 ++ ("moduleId:".toList ++ (w2 ++ ("module.id".toList ++
      (w3 ++ (',' :: (w4 ++ r))))))) = some r := by
  unfold tryMatchModuleId
  rw [eatWs_ws_append_noWs h1 (headNoWs_moduleId _), matchLit_self_append, bindSomeEq,
    eatWs_ws_append_noWs h2 (headNoWs_moduleDotId _), matchLit_self_append, bindSomeEq,
    eatWs_ws_append_noWs h3 (headNoWs_comma _), commaTailOpt_comma,
    eatWs_ws_append_noWs h4 hr]

/-- The module-id pattern also matches without a trailing comma, as long as
the next character is neither whitespace nor a comma. -/
theorem tryMatchModuleId_marker_nocomma (w1 w2 w3 r : List Char)
    (h1 : w1.all isJsSpace = true) (h2 : w2.all isJsSpace = true)
    (h3 : w3.all isJsSpace = true) (hr : headStops r = true) :
    tryMatchModuleId (w1 ++ ("moduleId:".toList ++ (w2 ++ ("module.id".toList ++
      (w3 ++ r))))) = some r := by
  have hrw : headNoWs r = true := by
    cases r with
    | nil => rfl
    | cons c t =>
      simp only [headStops, Bool.and_eq_true] at hr
      simp [headNoWs, hr.1]
  unfold tryMatchModuleId
  rw [eatWs_ws_append_noWs h1 (headNoWs_moduleId _), matchLit_self_append, bindSomeEq,
    eatWs_ws_append_noWs h2 (headNoWs_moduleDotId _), matchLit_self_append, bindSomeEq,
    eatWs_ws_append_noWs h3 hrw, commaTailOpt_stops hr]

/-- The pattern cannot match at a character that is neither whitespace nor
the start of the `moduleId:` literal. -/
theorem tryMatchModuleId_skip {c : Char} {cs : List Char}
    (hws : isJsSpace c = false) (hm : c ≠ 'm') :
    tryMatchModuleId (c :: cs) = none := by
  unfold tryMatchModuleId
  rw [eatWs_cons_not_ws hws]
  have hlit : matchLit "moduleId:".toList (c :: cs) = none := by
    show (if c = 'm' then matchLit "oduleId:".toList cs else none) = none
    rw [if_neg hm]
  rw [hlit, bindNoneEq]

theorem rmScan_skip {onM : List Char → List Char} {c : Char} {cs : List Char}
    (hws : isJsSpace c = false) (hm : c ≠ 'm') :
    rmScan onM (c :: cs) = c :: rmScan onM cs := by
  rw [rmScan_cons_eq, tryMatchModuleId_skip hws hm]

/-- Copy a run of characters at which the pattern cannot start. -/
theorem rmScan_copy {onM : List Char → List Char} {p : List Char} (rest : List Char)
    (hp : p.all (fun c => !isJsSpace c && !(c = 'm')) = true) :
    rmScan onM (p ++ rest) = p ++ rmScan onM rest := by
  induction p with
  | nil => rfl
  | cons c t ih =>
    simp only [List.all_cons, Bool.and_eq_true, Bool.not_eq_true'] at hp
    rw [List.cons_append, rmScan_skip hp.1.1 (by simpa using hp.1.2),
      ih (by simpa [List.all_eq_true] using hp.2), List.cons_append]

theorem rmScan_found {onM : List Char → List Char} {cs rest : List Char}
    (h : tryMatchModuleId cs = some rest) : rmScan onM cs = onM rest := by
  cases cs with
  | nil =>
    rw [show tryMatchModuleId ([] : List Char) = none from rfl] at h
    exact Option.noConfusion h
  | cons c t => rw [rmScan_cons_eq, h]

theorem rmRun_succ_eq (f : Nat) (cs : List Char) :
    rmRun (f + 1) cs = rmScan (rmRun f) cs := rfl

theorem toList_append (s t : String) : (s ++ t).toList = s.toList ++ t.toList := rfl

/-- Consume one whole marker match after a copied prefix: `p` is a run of
characters at which no match can start, then a full whitespace-padded
`moduleId: module.id,` marker, then the rest. -/
theorem rmRun_marker_step (f : Nat) (p w1 w2 w3 w4 rest : List Char)
    (hp : p.all (fun c => !isJsSpace c && !(c = 'm')) = true)
    (h1 : w1.all isJsSpace = true) (h2 : w2.all isJsSpace = true)
    (h3 : w3.all isJsSpace = true) (h4 : w4.all isJsSpace = true)
    (hr : headNoWs rest = true) :
    rmRun (f + 1) (p ++ (w1 ++ ("moduleId:".toList ++ (w2 ++ ("module.id".toList ++
      (w3 ++ (',' :: (w4 ++ rest)))))))) = p ++ rmRun f rest := by
  rw [rmRun_succ_eq, rmScan_copy _ hp,
    rmScan_found (tryMatchModuleId_marker _ _ _ _ _ h1 h2 h3 h4 hr)]

/-- The comma-less variant of `rmRun_marker_step`. -/
theorem rmRun_marker_step_nc (f : Nat) (p w1 w2 w3 rest : List Char)
    (hp : p.all (fun c => !isJsSpace c && !(c = 'm')) = true)
    (h1 : w1.all isJsSpace = true) (h2 : w2.all isJsSpace = true)
    (h3 : w3.all isJsSpace = true) (hr : headStops rest = true) :
    rmRun (f + 1) (p ++ (w1 ++ ("moduleId:".toList ++ (w2 ++ ("module.id".toList ++
      (w3 ++ rest)))))) = p ++ rmRun f rest := by
  rw [rmRun_succ_eq, rmScan_copy _ hp,
    rmScan_found (tryMatchModuleId_marker_nocomma _ _ _ _ h1 h2 h3 hr)]

theorem headNoWs_b2 (X : List Char) : headNoWs ("b:2,".toList ++ X) = true := rfl

/-- C3: `removeModuleId` removes every occurrence (not only the first) of
the `moduleId: module.id` marker — here one with and one without a trailing
comma, padded by arbitrary whitespace runs — together with the trailing
comma and all surrounding whitespace, while the surrounding properties'
own text (including their separating commas) is left exactly as it was, so
no dangling comma is introduced or left where the markers stood. -/
theorem removeModuleId_all_occurrences
    (w1 w2 w3 w4 v1 v2 v3 : String)
    (hw1 : w1.toList.all isJsSpace = true) (hw2 : w2.toList.all isJsSpace = true)
    (hw3 : w3.toList.all isJsSpace = true) (hw4 : w4.toList.all isJsSpace = true)
    (hv1 : v1.toList.all isJsSpace = true) (hv2 : v2.toList.all isJsSpace = true)
    (hv3 : v3.toList.all isJsSpace = true) :
    removeModuleId ("a:1," ++ w1 ++ "moduleId:" ++ w2 ++ "module.id" ++ w3 ++ "," ++
        w4 ++ "b:2," ++ v1 ++ "moduleId:" ++ v2 ++ "module.id" ++ v3 ++ "c:3")
      = "a:1,b:2,c:3" := by
  have hL : ("a:1," ++ w1 ++ "moduleId:" ++ w2 ++ "module.id" ++ w3 ++ "," ++
        w4 ++ "b:2," ++ v1 ++ "moduleId:" ++ v2 ++ "module.id" ++ v3 ++ "c:3").toList
      = "a:1,".toList ++ (w1.toList ++ ("moduleId:".toList ++ (w2.toList ++
        ("module.id".toList ++ (w3.toList ++ (',' :: (w4.toList ++
        ("b:2,".toList ++ (v1.toList ++ ("moduleId:".toList ++ (v2.toList ++
        ("module.id".toList ++ (v3.toList ++ "c:3".toList))))))))))))) := by
    simp only [toList_append, List.append_assoc,
      show ",".toList = [','] from rfl, List.singleton_append, List.cons_append, List.nil_append]
  have hlen : 2 ≤ ("a:1," ++ w1 ++ "moduleId:" ++ w2 ++ "module.id" ++ w3 ++ "," ++
      w4 ++ "b:2," ++ v1 ++ "moduleId:" ++ v2 ++ "module.id" ++ v3 ++ "c:3").toList.length := by
    rw [hL, List.length_append]
    have h4 : "a:1,".toList.length = 4 := by decide
    omega
  obtain ⟨k, hk⟩ : ∃ k, ("a:1," ++ w1 ++ "moduleId:" ++ w2 ++ "module.id" ++ w3 ++ "," ++
      w4 ++ "b:2," ++ v1 ++ "moduleId:" ++ v2 ++ "module.id" ++ v3 ++ "c:3").toList.length
        = (k + 1) + 1 :=
    ⟨("a:1," ++ w1 ++ "moduleId:" ++ w2 ++ "module.id" ++ w3 ++ "," ++
      w4 ++ "b:2," ++ v1 ++ "moduleId:" ++ v2 ++ "module.id" ++ v3 ++ "c:3").toList.length - 2, by omega⟩
  simp only [removeModuleId]
  rw [hk, hL, rmRun_marker_step (k + 1) _ _ _ _ _ _ (by decide) hw1 hw2 hw3 hw4
      (headNoWs_b2 _),
    rmRun_marker_step_nc k _ _ _ _ _ (by decide) hv1 hv2 hv3 (by decide),
    rmRun_id (by decide)]
  decide

/-- Witness for C3 at concrete whitespace runs. -/
theorem removeModuleId_all_occurrences_witness :
    "\n  ".toList.all isJsSpace = true ∧
      removeModuleId ("a:1," ++ "\n  " ++ "moduleId:" ++ " " ++ "module.id" ++ "" ++ "," ++
          "\n  " ++ "b:2," ++ "\n  " ++ "moduleId:" ++ " " ++ "module.id" ++ "\n" ++ "c:3")
        = "a:1,b:2,c:3" :=
  ⟨by decide,
    removeModuleId_all_occurrences "\n  " " " "" "\n  " "\n  " " " "\n"
      (by decide) (by decide) (by decide) (by decide) (by decide) (by decide) (by decide)⟩

/-- C10: `removeModuleId` deletes the whitespace immediately preceding the
marker as well (the leading `\s*` of the pattern): for any whitespace run
`w0` separating the previous property from the marker — for example a
newline plus indentation — the text before the run and the text after the
matched span become directly adjacent, and all content outside the matched
span is unchanged. -/
theorem removeModuleId_deletes_preceding_ws
    (w0 w1 w2 w3 : String)
    (hw0 : w0.toList.all isJsSpace = true) (hw1 : w1.toList.all isJsSpace = true)
    (hw2 : w2.toList.all isJsSpace = true) (hw3 : w3.toList.all isJsSpace = true) :
    removeModuleId ("a:1," ++ w0 ++ "moduleId:" ++ w1 ++ "module.id" ++ w2 ++ "," ++
        w3 ++ "b:2")
      = "a:1,b:2" := by
  have hL : ("a:1," ++ w0 ++ "moduleId:" ++ w1 ++ "module.id" ++ w2 ++ "," ++
        w3 ++ "b:2").toList
      = "a:1,".toList ++ (w0.toList ++ ("moduleId:".toList ++ (w1.toList ++
        ("module.id".toList ++ (w2.toList ++ (',' :: (w3.toList ++
        "b:2".toList))))))) := by
    simp only [toList_append, List.append_assoc,
      show ",".toList = [','] from rfl, List.singleton_append, List.cons_append, List.nil_append]
  have hlen : 1 ≤ ("a:1," ++ w0 ++ "moduleId:" ++ w1 ++ "module.id" ++ w2 ++ "," ++
      w3 ++ "b:2").toList.length := by
    rw [hL, List.length_append]
    have h4 : "a:1,".toList.length = 4 := by decide
    omega
  obtain ⟨k, hk⟩ : ∃ k, ("a:1," ++ w0 ++ "moduleId:" ++ w1 ++ "module.id" ++ w2 ++ "," ++
      w3 ++ "b:2").toList.length = k + 1 :=
    ⟨("a:1," ++ w0 ++ "moduleId:" ++ w1 ++ "module.id" ++ w2 ++ "," ++
      w3 ++ "b:2").toList.length - 1, by omega⟩
  simp only [removeModuleId]
  rw [hk, hL, rmRun_marker_step k _ _ _ _ _ _ (by decide) hw0 hw1 hw2 hw3 (by decide),
    rmRun_id (by decide)]
  decide

/-- Witness for C10 with a newline-and-indentation run before the marker. -/
theorem removeModuleId_deletes_preceding_ws_witness :
    "\n    ".toList.all isJsSpace = true ∧
      removeModuleId ("a:1," ++ "\n    " ++ "moduleId:" ++ " " ++ "module.id" ++ "" ++ "," ++
          "\n    " ++ "b:2")
        = "a:1,b:2" :=
  ⟨by decide,
    removeModuleId_deletes_preceding_ws "\n    " " " "" "\n    "
      (by decide) (by decide) (by decide) (by decide)⟩

/-! ## The collapse step, run-wise (claim C1) -/

theorem isJsSpace_of_isBreakChar {c : Char} (h : isBreakChar c = true) :
    isJsSpace c = true := by
  simp only [isBreakChar, Bool.or_eq_true, decide_eq_true_eq] at h
  rcases h with h | h <;> subst h <;> decide

theorem isBreakChar_eq_false_of_not_ws {c : Char} (h : isJsSpace c = false) :
    isBreakChar c = false := by
  cases hb : isBreakChar c with
  | true => rw [isJsSpace_of_isBreakChar hb] at h; cases h
  | false => rfl

theorem takeWhile_append_of_all {p : Char → Bool} {a : List Char} (b : List Char)
    (h : a.all p = true) : (a ++ b).takeWhile p = a ++ b.takeWhile p := by
  induction a with
  | nil => rfl
  | cons c t ih =>
    simp only [List.all_cons, Bool.and_eq_true] at h
    simp [List.takeWhile_cons, h.1, ih h.2]

theorem takeWhile_append_of_any_not {p : Char → Bool} {a : List Char} (b : List Char)
    (h : a.any (fun c => !p c) = true) : (a ++ b).takeWhile p = a.takeWhile p := by
  induction a with
  | nil => simp at h
  | cons c t ih =>
    cases hc : p c with
    | true =>
      simp only [List.any_cons, hc, Bool.not_true, Bool.false_or] at h
      simp [List.takeWhile_cons, hc, ih h]
    | false => simp [List.takeWhile_cons, hc]

/-- The run-wise reading of the collapse regex, with an explicit pending
whitespace run `acc` (in reverse): if the pending run has no line break
the scanner is in its base state, otherwise it is skipping the tail of a
matched break run. -/
theorem all_not_break_of_any_false {l : List Char} (h : l.any isBreakChar = false) :
    l.all (fun c => !isBreakChar c) = true := by
  rw [List.all_eq_true]
  intro x hx
  simpa using List.any_eq_false.mp h x hx

theorem wsRunMap_amended_spec (cs : List Char) : ∀ acc : List Char,
    acc.all isJsSpace = true →
    (acc.any isBreakChar = false →
      wsRunMap
        (fun r =>
          if r.any isBreakChar then r.takeWhile (fun c => !isBreakChar c) ++ [' ']
          else r) acc cs
        = acc.reverse ++ collapseBreakRuns false cs) ∧
    (acc.any isBreakChar = true →
      wsRunMap
        (fun r =>
          if r.any isBreakChar then r.takeWhile (fun c => !isBreakChar c) ++ [' ']
          else r) acc cs
        = (acc.reverse.takeWhile fun c => !isBreakChar c) ++ ' ' :: collapseBreakRuns true cs) := by
  induction cs with
  | nil =>
    intro acc hacc
    constructor
    · intro hnb
      simp [wsRunMap, collapseBreakRuns, List.any_reverse, hnb]
    · intro hb
      simp [wsRunMap, collapseBreakRuns, List.any_reverse, hb]
  | cons c cs' ih =>
    intro acc hacc
    cases hws : isJsSpace c with
    | true =>
      have hacc' : (c :: acc).all isJsSpace = true := by simp [List.all_cons, hws, hacc]
      constructor
      · intro hnb
        rw [wsRunMap, if_pos hws]
        cases hbc : isBreakChar c with
        | false =>
          have h1 := (ih (c :: acc) hacc').1 (by simp [List.any_cons, hbc, hnb])
          rw [h1, collapseBreakRuns, if_neg (by simp [hbc])]
          simp [List.append_assoc]
        | true =>
          have h2 := (ih (c :: acc) hacc').2 (by simp [List.any_cons, hbc])
          rw [h2, collapseBreakRuns, if_pos (by simp [hbc])]
          rw [List.reverse_cons,
            takeWhile_append_of_all _ (by
              simp only [List.all_reverse]
              exact all_not_break_of_any_false hnb)]
          simp [hbc]
      · intro hb
        rw [wsRunMap, if_pos hws]
        have h2 := (ih (c :: acc) hacc').2 (by simp [List.any_cons, hb])
        rw [h2, collapseBreakRuns, if_pos hws, List.reverse_cons,
          takeWhile_append_of_any_not _ (by
            simpa [List.any_reverse] using hb)]
    | false =>
      have hbc : isBreakChar c = false := isBreakChar_eq_false_of_not_ws hws
      have hbase := (ih [] rfl).1 rfl
      constructor
      · intro hnb
        rw [wsRunMap, if_neg (by simp [hws]), hbase]
        simp [collapseBreakRuns, List.any_reverse, hnb, hbc]
      · intro hb
        rw [wsRunMap, if_neg (by simp [hws]), hbase]
        simp [collapseBreakRuns, List.any_reverse, hb, hbc, hws,
          List.append_assoc]

/-- The embedded collapse scanner is exactly the amended run-wise rule. -/
theorem collapseBreakRuns_eq_amended (cs : List Char) :
    collapseBreakRuns false cs = amendedCollapseWs cs := by
  have h := (wsRunMap_amended_spec cs [] rfl).1 rfl
  simpa [amendedCollapseWs] using h.symm

theorem mk_data (l : List Char) : (String.mk l).data = l := rfl

/-- C1 (counterexample): the claim's collapse rule — every whitespace run
containing a line break becomes a single space — does not hold: for the
resource content `"a \nb"` the run `" \n"` contains a line break, so the
claim demands the inlined text `"a b"`, but the regex
`/([\n\r]\s*)+/gm` only matches from the line break onwards and the code
produces `"a  b"` (the space before the line break survives). -/
theorem inlineTemplate_claim_collapse_cex :
    inlineTemplate "templateUrl: 'a.html'" (fun u => u) (fun _ => some "a \nb")
        = .ok "template: \"a  b\"" ∧
      String.mk (escapeQuotes (claimCollapseWs "a \nb".toList)) = "a b" ∧
      inlineTemplate "templateUrl: 'a.html'" (fun u => u) (fun _ => some "a \nb")
        ≠ .ok ("template: \"" ++ String.mk (escapeQuotes (claimCollapseWs "a \nb".toList))
            ++ "\"") := by
  refine ⟨rfl, by decide, fun h => ?_⟩
  rw [show inlineTemplate "templateUrl: 'a.html'" (fun u => u) (fun _ => some "a \nb")
      = .ok "template: \"a  b\"" from rfl] at h
  exact absurd (Except.ok.inj h) (by decide)

/-- C1 (amended): `inlineTemplate` replaces each matched `templateUrl`
declaration with a `template:` declaration whose inlined text is the
referenced resource content with, in every maximal whitespace run that
contains a line break, the part from the first line break onwards collapsed
to a single space (whitespace before the run's first line break is kept),
and with every embedded double quote escaped; the claim's own example is
unchanged by the amendment. -/
theorem inlineTemplate_amended :
    (∀ (res read : String → String),
      inlineTemplate "x templateUrl: 'a.html', y templateUrl: 'b.html' z" res
          (fun u => some (read u))
        = .ok ("x template: \"" ++ String.mk (shortenResource (read (res "a.html")).toList)
            ++ "\", y template: \"" ++ String.mk (shortenResource (read (res "b.html")).toList)
            ++ "\" z"))
    ∧ (∀ cs : List Char, shortenResource cs = escapeQuotes (amendedCollapseWs cs))
    ∧ inlineTemplate "templateUrl: 'a.html'" (fun u => u)
        (fun _ => some "<div>\n  Hi\n</div>") = .ok "template: \"<div> Hi </div>\"" := by
  refine ⟨fun res read => ?_, fun cs => ?_, rfl⟩
  · have h1 : inlineTemplate "x templateUrl: 'a.html', y templateUrl: 'b.html' z" res
        (fun u => some (read u))
        = .ok (String.mk ('x' :: ' ' :: ("template: \"".toList ++
            shortenResource (read (res "a.html")).toList ++ '"' ::
            (',' :: ' ' :: 'y' :: ' ' :: ("template: \"".toList ++
              shortenResource (read (res "b.html")).toList ++ '"' ::
              (' ' :: 'z' :: [])))))) := rfl
    refine h1.trans (congrArg Except.ok (String.ext ?_))
    simp [mk_data, String.data_append, List.append_assoc]
  · rw [shortenResource, collapseBreakRuns_eq_amended]

/-! ## Lemmas for the style pass (claim C2) -/

theorem mk_toList (s : String) : String.mk s.toList = s := rfl

theorem lazyBracket_capture {inner : List Char} (rest : List Char) :
    ∀ acc : List Char, inner.all (fun c => !(c = ']')) = true →
    lazyBracket acc (inner ++ ']' :: rest) = some (acc.reverse ++ inner, rest) := by
  induction inner with
  | nil =>
    intro acc _
    simp [lazyBracket]
  | cons c t ih =>
    intro acc h
    simp only [List.all_cons, Bool.and_eq_true, Bool.not_eq_true'] at h
    have hc : ¬(c = ']') := by simpa using h.1
    rw [List.cons_append, lazyBracket, if_neg hc,
      ih (c :: acc) (by simpa [List.all_eq_true] using h.2)]
    simp

theorem joinSep_cc (sep x y : List Char) (ys : List (List Char)) :
    joinSep sep (x :: y :: ys) = x ++ sep ++ joinSep sep (y :: ys) := rfl

theorem parseReady_ws {c : Char} {P : List String} {X : List Char}
    (h : isJsSpace c = true) :
    parseArrOn (.ready P) (c :: X) = parseArrOn (.ready P) X := by
  simp [parseArrOn, h]

theorem parseReady_quote (P : List String) (X : List Char) :
    parseArrOn (.ready P) ('\'' :: X) = parseArrOn (.inStr '\'' [] P) X := by
  simp [parseArrOn, isJsSpace]

theorem parseInStr_char {q c : Char} {acc : List Char} {P : List String}
    {X : List Char} (hq : ¬(c = q)) (hb : ¬(c = '\\')) :
    parseArrOn (.inStr q acc P) (c :: X) = parseArrOn (.inStr q (c :: acc) P) X := by
  simp [parseArrOn, hq, hb]

theorem parseInStr_close (q : Char) (acc : List Char) (P : List String)
    (X : List Char) :
    parseArrOn (.inStr q acc P) (q :: X)
      = parseArrOn (.afterStr (String.mk acc.reverse :: P)) X := by
  simp [parseArrOn]

theorem parseAfter_comma (P : List String) (X : List Char) :
    parseArrOn (.afterStr P) (',' :: X) = parseArrOn (.ready P) X := by
  simp [parseArrOn, isJsSpace]

/-- Consume one single-quoted url body inside the array literal. -/
theorem parseInStr_url :
    ∀ us : List Char, us.all (fun c => !(c = '\'') && !(c = '\\')) = true →
    ∀ (acc : List Char) (P : List String) (X : List Char),
    parseArrOn (.inStr '\'' acc P) (us ++ '\'' :: X)
      = parseArrOn (.afterStr (String.mk (acc.reverse ++ us) :: P)) X := by
  intro us
  induction us with
  | nil =>
    intro _ acc P X
    rw [List.nil_append, parseInStr_close, List.append_nil]
  | cons c t ih =>
    intro hu acc P X
    simp only [List.all_cons, Bool.and_eq_true, Bool.not_eq_true'] at hu
    have hc : ¬(c = '\'') := by simpa using hu.1.1
    have hb : ¬(c = '\\') := by simpa using hu.1.2
    rw [List.cons_append, parseInStr_char hc hb,
      ih (by simpa [List.all_eq_true] using hu.2) (c :: acc) P X,
      show (c :: acc).reverse ++ t = acc.reverse ++ c :: t by simp]

/-- Parse the rendered inner text of a `styleUrls` array literal: the urls
come back in source order, appended to the already-parsed elements. -/
theorem parseArrOn_render :
    ∀ urls : List String, urls.all urlCharsOk = true →
    ∀ P : List String,
    parseArrOn (.ready P)
        (joinSep ", ".toList (urls.map (fun u => '\'' :: (u.toList ++ ['\'']))))
      = some (P.reverse ++ urls) := by
  intro urls
  induction urls with
  | nil =>
    intro _ P
    simp [joinSep, parseArrOn]
  | cons u us ih =>
    intro h P
    simp only [List.all_cons, Bool.and_eq_true] at h
    have hu : u.toList.all (fun c => !(c = '\'') && !(c = '\\')) = true := by
      rw [List.all_eq_true]
      intro x hx
      have := (List.all_eq_true.mp h.1) x hx
      simp only [Bool.and_eq_true] at this
      simp [this.1.1, this.1.2]
    cases us with
    | nil =>
      rw [List.map_cons, List.map_nil, joinSep, parseReady_quote,
        show u.toList ++ ['\''] = u.toList ++ '\'' ::List.nil from rfl,
        parseInStr_url u.toList hu [] P []]
      simp [parseArrOn, mk_toList]
    | cons v vs =>
      rw [List.map_cons, List.map_cons, joinSep_cc]
      rw [show ('\'' :: (u.toList ++ ['\''])) ++ ", ".toList ++
            joinSep ", ".toList (('\'' :: (v.toList ++ ['\''])) ::
              vs.map (fun u => '\'' :: (u.toList ++ ['\''])))
          = '\'' :: (u.toList ++ '\'' :: (',' :: ' ' ::
            joinSep ", ".toList (('\'' :: (v.toList ++ ['\''])) ::
              vs.map (fun u => '\'' :: (u.toList ++ ['\''])))))
        from by simp]
      have ih' := ih h.2 (String.mk ([].reverse ++ u.toList) :: P)
      rw [List.map_cons] at ih'
      rw [parseReady_quote, parseInStr_url u.toList hu [] P _, parseAfter_comma,
        parseReady_ws (by decide), ih']
      simp [mk_toList]

/-- Reading and shortening every style url succeeds when every resolved
file is readable. -/
theorem readStyles_total (res : String → String) (read : String → String) :
    ∀ urls : List String,
    readStyles res (fun u => some (read u)) urls
      = .ok (urls.map (fun u => '"' :: shortenResource (read (res u)).toList ++ ['"'])) := by
  intro urls
  induction urls with
  | nil => rfl
  | cons u us ih =>
    rw [readStyles, show readFileSyncE (fun u => some (read u)) (res u)
        = .ok (read (res u)) from rfl, ih, ebindOk, emapOk, List.map_cons]

theorem styScan_cons_eq (onM : List Char → List Char → Except Unit (List Char))
    (c : Char) (cs : List Char) :
    styScan onM (c :: cs) =
      (match tryMatchStyle (c :: cs) with
        | some (inner, rest) => onM inner rest
        | none => (styScan onM cs).map (fun out => c :: out)) := rfl

theorem styScan_found {onM : List Char → List Char → Except Unit (List Char)}
    {cs inner rest : List Char} (h : tryMatchStyle cs = some (inner, rest)) :
    styScan onM cs = onM inner rest := by
  cases cs with
  | nil =>
    rw [show tryMatchStyle ([] : List Char) = none from rfl] at h
    exact Option.noConfusion h
  | cons c t => rw [styScan_cons_eq, h]

theorem styRun_succ_eq (res : String → String) (fs : String → Option String)
    (f : Nat) (cs : List Char) :
    styRun res fs (f + 1) cs =
      styScan
        (fun inner rest =>
          (obindE (parseArrayLit inner)) fun urls =>
            (readStyles res fs urls).bind fun quoted =>
              (styRun res fs f rest).bind fun out =>
                .ok ("styles: [".toList ++ joinSep ",\n".toList quoted ++ ']' :: out))
        cs := rfl

/-- One successful style replacement. -/
theorem styRun_found {res : String → String} {fs : String → Option String}
    {f : Nat} {cs inner rest : List Char} {urls : List String}
    {quoted : List (List Char)} {out : List Char}
    (h1 : tryMatchStyle cs = some (inner, rest))
    (h2 : parseArrayLit inner = some urls)
    (h3 : readStyles res fs urls = .ok quoted)
    (h4 : styRun res fs f rest = .ok out) :
    styRun res fs (f + 1) cs
      = .ok ("styles: [".toList ++ joinSep ",\n".toList quoted ++ ']' :: out) := by
  rw [styRun_succ_eq, styScan_found h1, h2]
  simp only [obindESome, h3, ebindOk, h4]

theorem mk_toList_inv (l : List Char) : (String.mk l).toList = l := rfl

theorem urlChars_no_rb {u : String} (h : urlCharsOk u = true) :
    u.toList.all (fun c => !(c = ']')) = true := by
  rw [urlCharsOk, List.all_eq_true] at h
  rw [List.all_eq_true]
  intro x hx
  have := h x hx
  simp only [Bool.and_eq_true] at this
  exact this.2

theorem renderInner_no_rb :
    ∀ urls : List String, urls.all urlCharsOk = true →
    (joinSep ", ".toList
        (urls.map (fun u => '\'' :: (u.toList ++ ['\''])))).all (fun c => !(c = ']'))
      = true := by
  intro urls
  induction urls with
  | nil => intro _; rfl
  | cons u us ih =>
    intro h
    simp only [List.all_cons, Bool.and_eq_true] at h
    have hu := urlChars_no_rb h.1
    cases us with
    | nil =>
      rw [List.map_cons, List.map_nil]
      show (('\'' :: (u.toList ++ ['\''])).all fun c => !(c = ']')) = true
      simp only [List.all_cons, List.all_append, Bool.and_eq_true]
      exact ⟨by decide, hu, by decide⟩
    | cons v vs =>
      rw [List.map_cons, List.map_cons, joinSep_cc]
      have ih' := ih h.2
      rw [List.map_cons] at ih'
      simp only [List.all_cons, List.all_append, Bool.and_eq_true]
      exact ⟨⟨⟨by decide, hu, by decide⟩, by decide⟩, ih'⟩

/-- C2: for every `styleUrls` declaration whose array literal lists the
urls `u1 .. un` in order (urls made of ordinary path characters: no quote,
backslash or closing bracket), `inlineStyle` replaces the declaration with
a `styles:` declaration listing the shortened (whitespace-collapsed,
quote-escaped) contents of `u1 .. un` as double-quoted strings in the same
order, joined by a comma followed by a newline; when the array is empty the
result is the empty `styles: []`. -/
theorem inlineStyle_spec (urls : List String) (res read : String → String)
    (hurls : urls.all urlCharsOk = true) :
    inlineStyle ("styleUrls: " ++ renderStyleUrls urls) res (fun u => some (read u))
      = .ok ("styles: [" ++ String.mk (joinSep ",\n".toList
          (urls.map (fun u => '"' :: shortenResource (read (res u)).toList ++ ['"'])))
          ++ "]") := by
  have hshape : ("styleUrls: " ++ renderStyleUrls urls).toList
      = "styleUrls:".toList ++ (' ' :: '[' ::
        (joinSep ", ".toList (urls.map (fun u => '\'' :: (u.toList ++ ['\'']))) ++
          ']' :: [])) := by
    rw [toList_append, renderStyleUrls, mk_toList_inv]
    simp
  have hmatch : tryMatchStyle (("styleUrls: " ++ renderStyleUrls urls).toList)
      = some (joinSep ", ".toList (urls.map (fun u => '\'' :: (u.toList ++ ['\'']))), []) := by
    unfold tryMatchStyle
    rw [hshape, matchLit_self_append, bindSomeEq, eatWs_ws_cons (by decide),
      eatWs_cons_not_ws (by decide)]
    rw [show bracketTail ('[' ::
        (joinSep ", ".toList (urls.map (fun u => '\'' :: (u.toList ++ ['\'']))) ++
          ']' :: []))
      = lazyBracket []
          (joinSep ", ".toList (urls.map (fun u => '\'' :: (u.toList ++ ['\'']))) ++
            ']' :: []) from rfl]
    rw [lazyBracket_capture _ [] (renderInner_no_rb urls hurls)]
    simp
  have hparse : parseArrayLit
      (joinSep ", ".toList (urls.map (fun u => '\'' :: (u.toList ++ ['\''])))) = some urls := by
    rw [parseArrayLit]
    simpa using parseArrOn_render urls hurls []
  obtain ⟨k, hk⟩ : ∃ k, ("styleUrls: " ++ renderStyleUrls urls).toList.length = k + 1 := by
    refine ⟨("styleUrls: " ++ renderStyleUrls urls).toList.length - 1, ?_⟩
    rw [hshape, List.length_append]
    have : "styleUrls:".toList.length = 10 := by decide
    omega
  rw [inlineStyle, hk,
    styRun_found hmatch hparse (readStyles_total res read urls) (styRun_id (by decide)),
    emapOk]
  refine congrArg Except.ok (String.ext ?_)
  simp [mk_data, String.data_append, List.append_assoc]

/-- Witness for C2 at the spec's example: `styleUrls: ['a.css', 'b.css']`
with contents `body{}` and `a{}` becomes `styles: ["body{}",\n"a{}"]`. -/
theorem inlineStyle_spec_witness :
    (["a.css", "b.css"] : List String).all urlCharsOk = true ∧
      "styleUrls: " ++ renderStyleUrls ["a.css", "b.css"] = "styleUrls: ['a.css', 'b.css']" ∧
      inlineStyle ("styleUrls: " ++ renderStyleUrls ["a.css", "b.css"]) (fun u => u)
          (fun u => some (if u = "a.css" then "body{}" else "a{}"))
        = .ok ("styles: [" ++ String.mk (joinSep ",\n".toList
            ((["a.css", "b.css"] : List String).map (fun u => '"' ::
              shortenResource ((if (fun u => u) u = "a.css" then "body{}" else "a{}") :
                String).toList ++ ['"'])))
            ++ "]") ∧
      inlineStyle "styleUrls: ['a.css', 'b.css']" (fun u => u)
          (fun u => some (if u = "a.css" then "body{}" else "a{}"))
        = .ok "styles: [\"body{}\",\n\"a{}\"]" :=
  ⟨by decide, by decide,
    inlineStyle_spec ["a.css", "b.css"] (fun u => u)
      (fun u => if u = "a.css" then "body{}" else "a{}") (by decide),
    rfl⟩

/-! ## Lemmas for non-matching template declarations (claim C8) -/

theorem bindNoneO {α β : Type} (f : α → Option β) :
    (none : Option α).bind f = none := rfl

theorem quoteTail_none {c : Char} {cs : List Char} (hc : ¬(c = '\'')) :
    quoteTail (c :: cs) = none := by
  unfold quoteTail
  split
  · rename_i cs2 heq
    injection heq with h1 _
    exact absurd h1 hc
  · rfl

/-- A successful template match needs a single quote somewhere in the
input: the regex contains a literal `'`. -/
theorem tryMatchTemplate_some_quote {cs : List Char} {v : List Char × List Char}
    (h : tryMatchTemplate cs = some v) : '\'' ∈ cs := by
  unfold tryMatchTemplate at h
  cases hm : matchLit "templateUrl:".toList cs with
  | none => rw [hm, bindNoneO] at h; exact Option.noConfusion h
  | some cs1 =>
    rw [hm, bindSomeEq] at h
    cases he : eatWs cs1 with
    | nil =>
      rw [he, show quoteTail [] = none from rfl] at h
      exact Option.noConfusion h
    | cons c X =>
      by_cases hc : c = '\''
      · subst hc
        have h1 : '\'' ∈ cs1 := (eatWs_suffix cs1).subset (he ▸ List.mem_cons_self _ _)
        rw [matchLit_eq_some_iff.mp hm]
        exact List.mem_append_right _ h1
      · rw [he, quoteTail_none hc] at h
        exact Option.noConfusion h

theorem anyTemplateMatch_no_quote : ∀ {cs : List Char}, '\'' ∉ cs →
    anyTemplateMatch cs = false := by
  intro cs h
  induction cs with
  | nil => rfl
  | cons c t ih =>
    rw [anyTemplateMatch]
    cases hm : tryMatchTemplate (c :: t) with
    | some v => exact absurd (tryMatchTemplate_some_quote hm) h
    | none => simp [ih (fun hx => h (List.mem_cons_of_mem _ hx))]

theorem append_quoteSep_inj {b : List Char}
    (hb : b.all (fun c => !(c = '\'')) = true) :
    ∀ d Z r : List Char, d.all (fun c => !(c = '\'')) = true →
    d ++ '\'' :: Z = b ++ '\'' :: r → d = b ∧ Z = r := by
  induction b with
  | nil =>
    intro d Z r hd heq
    cases d with
    | nil =>
      rw [List.nil_append, List.nil_append] at heq
      injection heq with _ h2
      exact ⟨rfl, h2⟩
    | cons c d' =>
      rw [List.cons_append, List.nil_append] at heq
      injection heq with h1 _
      simp only [List.all_cons, Bool.and_eq_true, Bool.not_eq_true'] at hd
      exact absurd h1 (by simpa using hd.1)
  | cons x xs ih =>
    intro d Z r hd heq
    simp only [List.all_cons, Bool.and_eq_true, Bool.not_eq_true'] at hb
    cases d with
    | nil =>
      rw [List.nil_append, List.cons_append] at heq
      injection heq with h1 _
      exact absurd h1.symm (by simpa using hb.1)
    | cons c d' =>
      rw [List.cons_append, List.cons_append] at heq
      injection heq with h1 h2
      simp only [List.all_cons, Bool.and_eq_true, Bool.not_eq_true'] at hd
      have := ih (by simpa [List.all_eq_true] using hb.2) d' Z r
        (by simpa [List.all_eq_true] using hd.2) h2
      exact ⟨by rw [h1, this.1], this.2⟩

theorem matchLit_isSome_of_append_singleton :
    ∀ (lit a r : List Char) (q : Char), a ++ [q] = lit ++ r → q ∉ lit →
    (matchLit lit a).isSome = true := by
  intro lit
  induction lit with
  | nil => intro a r q _ _; rfl
  | cons l ls ih =>
    intro a r q heq hq
    cases a with
    | nil =>
      rw [List.nil_append] at heq
      injection heq with h1 _
      exact absurd (h1 ▸ List.mem_cons_self l ls) hq
    | cons c a' =>
      rw [List.cons_append] at heq
      rw [List.cons_append] at heq
      injection heq with h1 h2
      subst h1
      rw [matchLit, if_pos rfl]
      exact ih a' r q h2 (fun hx => hq (List.mem_cons_of_mem _ hx))

/-- If the path text contains no `templateUrl:` literal, no position inside
it (followed by the closing quote) can start a template match. -/
theorem anyTemplateMatch_quote_end {p : List Char}
    (h : containsSub "templateUrl:".toList p = false) :
    anyTemplateMatch (p ++ ['\'']) = false := by
  induction p with
  | nil => decide
  | cons c t ih =>
    rw [containsSub, Bool.or_eq_false_iff] at h
    rw [List.cons_append, anyTemplateMatch]
    cases hm : tryMatchTemplate (c :: (t ++ ['\''])) with
    | some v =>
      exfalso
      unfold tryMatchTemplate at hm
      cases hml : matchLit "templateUrl:".toList (c :: (t ++ ['\''])) with
      | none => rw [hml, bindNoneO] at hm; exact Option.noConfusion hm
      | some cs1 =>
        have heq := matchLit_eq_some_iff.mp hml
        have hsome : (matchLit "templateUrl:".toList (c :: t)).isSome = true :=
          matchLit_isSome_of_append_singleton _ (c :: t) cs1 '\''
            (by rw [List.cons_append]; exact heq) (by decide)
        rw [h.1] at hsome
        cases hsome
    | none => simp [ih h.2]

/-- The lazy `[^']+?\.html` group fails when no allowed closing position
exists before the first embedded quote. -/
theorem lazyHtml_none_of (Z : List Char) :
    ∀ (p1 acc : List Char), p1.all (fun c => !(c = '\'')) = true →
    (∀ j, (acc.isEmpty = false ∨ 1 ≤ j) →
      matchLit ".html'".toList (p1.drop j ++ '\'' :: Z) = none) →
    lazyHtml acc (p1 ++ '\'' :: Z) = none := by
  intro p1
  induction p1 with
  | nil =>
    intro acc _ H
    rw [List.nil_append, lazyHtml]
    cases hacc : acc.isEmpty with
    | true => rfl
    | false =>
      have h0 := H 0 (Or.inl hacc)
      rw [List.drop_nil, List.nil_append] at h0
      rw [if_neg (by simp), h0]
      rfl
  | cons c t ih =>
    intro acc hall H
    simp only [List.all_cons, Bool.and_eq_true, Bool.not_eq_true'] at hall
    have hc : ¬(c = '\'') := by simpa using hall.1
    rw [List.cons_append, lazyHtml]
    have h0 : (if acc.isEmpty then none
        else matchLit ".html'".toList (c :: (t ++ '\'' :: Z))) = none := by
      cases hacc : acc.isEmpty with
      | true => rfl
      | false =>
        have h := H 0 (Or.inl hacc)
        rw [List.drop_zero, List.cons_append] at h
        rw [if_neg (by simp), h]
    rw [h0]
    simp only [hc, if_false]
    exact ih (c :: acc) (by simpa [List.all_eq_true] using hall.2)
      (fun j _ => by
        have := H (j + 1) (Or.inr (by omega))
        rwa [List.drop_succ_cons] at this)

/-- At positions `j ≥ 1` of a quote-free path that does not end in `.html`,
the lazy group cannot close. -/
theorem html_check_none {p1 : List Char}
    (hq : p1.all (fun c => !(c = '\'')) = true)
    (hh : ∀ s, s ≠ [] → p1 ≠ s ++ ".html".toList) (Z : List Char) :
    ∀ j, 1 ≤ j → matchLit ".html'".toList (p1.drop j ++ '\'' :: Z) = none := by
  intro j hj
  cases hm : matchLit ".html'".toList (p1.drop j ++ '\'' :: Z) with
  | none => rfl
  | some r =>
    exfalso
    have heq := matchLit_eq_some_iff.mp hm
    rw [show ".html'".toList = ".html".toList ++ ['\''] from rfl,
      List.append_assoc, List.singleton_append] at heq
    have hdall : (p1.drop j).all (fun c => !(c = '\'')) = true := by
      rw [List.all_eq_true] at hq ⊢
      exact fun x hx => hq x (List.mem_of_mem_drop hx)
    obtain ⟨hdeq, _⟩ := append_quoteSep_inj (by decide) (p1.drop j) _ _ hdall heq
    have hsplit : p1 = p1.take j ++ ".html".toList := by
      rw [← hdeq, List.take_append_drop]
    have hne : p1.take j ≠ [] := by
      cases p1 with
      | nil => rw [List.drop_nil] at hdeq; exact List.noConfusion hdeq
      | cons x xs =>
        cases j with
        | zero => omega
        | succ j' => simp [List.take_succ_cons]
    exact hh _ hne hsplit

/-- Skipping the concrete `templateUrl: '` prefix: only position 0 can
start a match inside it. -/
theorem anyTemplateMatch_tpl_head (X : List Char) :
    anyTemplateMatch ("templateUrl: ".toList ++ '\'' :: X)
      = ((tryMatchTemplate ("templateUrl: ".toList ++ '\'' :: X)).isSome
          || anyTemplateMatch X) := rfl

/-- C8: a `templateUrl` declaration written with a non-single-quote
delimiter (here `"`), or one whose reference path contains a single-quote
character, is not matched by the template regex, and `inlineTemplate`
passes the content through unchanged.  For the quote-in-path case the path
must not itself embed a complete alternative match: the part before the
embedded quote must not be of the form `…​.html` with a non-empty stem, and
the path must not contain another `templateUrl:` literal. -/
theorem inlineTemplate_unmatched_decl :
    (∀ (p : List Char) (res : String → String) (fs : String → Option String),
      '\'' ∉ p →
      inlineTemplate (String.mk ("templateUrl: ".toList ++ '"' :: (p ++ ['"']))) res fs
        = .ok (String.mk ("templateUrl: ".toList ++ '"' :: (p ++ ['"']))))
    ∧ (∀ (p1 p2 : List Char) (res : String → String) (fs : String → Option String),
      p1.all (fun c => !(c = '\'')) = true →
      (∀ s, s ≠ [] → p1 ≠ s ++ ".html".toList) →
      containsSub "templateUrl:".toList (p1 ++ '\'' :: p2) = false →
      inlineTemplate
          (String.mk ("templateUrl: ".toList ++ '\'' :: ((p1 ++ '\'' :: p2) ++ ['\'']))) res fs
        = .ok (String.mk
            ("templateUrl: ".toList ++ '\'' :: ((p1 ++ '\'' :: p2) ++ ['\''])))) := by
  constructor
  · intro p res fs hp
    apply inlineTemplate_id
    rw [mk_toList_inv]
    apply anyTemplateMatch_no_quote
    intro hmem
    simp at hmem
    exact hp hmem
  · intro p1 p2 res fs hq hh htu
    apply inlineTemplate_id
    rw [mk_toList_inv]
    have h0 : tryMatchTemplate
        ("templateUrl: ".toList ++ '\'' :: ((p1 ++ '\'' :: p2) ++ ['\''])) = none := by
      unfold tryMatchTemplate
      rw [show ("templateUrl: ".toList ++ '\'' :: ((p1 ++ '\'' :: p2) ++ ['\'']))
          = "templateUrl:".toList ++ (' ' :: '\'' :: ((p1 ++ '\'' :: p2) ++ ['\''])) from rfl]
      rw [matchLit_self_append, bindSomeEq, eatWs_ws_cons (by decide),
        eatWs_cons_not_ws (by decide)]
      rw [show quoteTail ('\'' :: ((p1 ++ '\'' :: p2) ++ ['\'']))
          = lazyHtml [] ((p1 ++ '\'' :: p2) ++ ['\'']) from rfl]
      rw [show (p1 ++ '\'' :: p2) ++ ['\''] = p1 ++ '\'' :: (p2 ++ ['\'']) from by simp]
      refine lazyHtml_none_of (p2 ++ ['\'']) p1 [] hq (fun j hj => ?_)
      rcases hj with hj | hj
      · exact absurd hj (by simp)
      · exact html_check_none hq hh (p2 ++ ['\'']) j hj
    rw [anyTemplateMatch_tpl_head, h0]
    simp only [Option.isSome_none, Bool.false_or]
    exact anyTemplateMatch_quote_end htu

/-- Witness for C8: `templateUrl: "a.html"` (double-quoted) and
`templateUrl: 'a'b.html'` (embedded quote) both pass through unchanged. -/
theorem inlineTemplate_unmatched_decl_witness :
    ('\'' ∉ ("a.html".toList : List Char)) ∧
      inlineTemplate (String.mk ("templateUrl: ".toList ++ '"' :: ("a.html".toList ++ ['"'])))
          (fun u => u) (fun _ => some "X")
        = .ok (String.mk ("templateUrl: ".toList ++ '"' :: ("a.html".toList ++ ['"']))) ∧
      String.mk ("templateUrl: ".toList ++ '"' :: ("a.html".toList ++ ['"']))
        = "templateUrl: \"a.html\"" ∧
      inlineTemplate (String.mk ("templateUrl: ".toList ++ '\'' ::
            ((("a".toList : List Char) ++ '\'' :: "b.html".toList) ++ ['\''])))
          (fun u => u) (fun _ => some "X")
        = .ok (String.mk ("templateUrl: ".toList ++ '\'' ::
            ((("a".toList : List Char) ++ '\'' :: "b.html".toList) ++ ['\'']))) ∧
      String.mk ("templateUrl: ".toList ++ '\'' ::
          ((("a".toList : List Char) ++ '\'' :: "b.html".toList) ++ ['\'']))
        = "templateUrl: 'a'b.html'" :=
  ⟨by decide,
    inlineTemplate_unmatched_decl.1 "a.html".toList (fun u => u) (fun _ => some "X")
      (by decide),
    by decide,
    inlineTemplate_unmatched_decl.2 "a".toList "b.html".toList (fun u => u)
      (fun _ => some "X") (by decide)
      (by
        intro st hs heq
        have hl := congrArg List.length heq
        rw [List.length_append] at hl
        cases st with
        | nil => exact hs rfl
        | cons a t => simp at hl)
      (by decide),
    by decide⟩

/-! ## Lemmas for the configuration reader (claims C4, C6, C9) -/

theorem optionElimSome {α β : Type} (a : α) (b : β) (f : α → β) :
    (some a).elim b f = f a := rfl

theorem optionElimNone {α β : Type} (b : β) (f : α → β) :
    (none : Option α).elim b f = b := rfl

theorem requireTs_cached {st : NodeState} {p : String} {t : Tsconfig}
    (h : alookup st.cache p = some t) : requireTs st p = .ok (t, st) := by
  unfold requireTs
  rw [h]

theorem requireTs_read {st : NodeState} {p : String} {t : Tsconfig}
    (h1 : alookup st.cache p = none) (h2 : st.disk p = some t) :
    requireTs st p = .ok (t, { st with cache := (p, t) :: st.cache }) := by
  unfold requireTs
  rw [h1, h2]

theorem requireTs_missing {st : NodeState} {p : String}
    (h1 : alookup st.cache p = none) (h2 : st.disk p = none) :
    requireTs st p = .error () := by
  unfold requireTs
  rw [h1, h2]

theorem readTsconfig_succ (fuel : Nat) (st : NodeState) (tsconfigPath : String) :
    readTsconfig (fuel + 1) st tsconfigPath =
      ((requireTs st (resolveP scriptDir tsconfigPath)).bind fun js =>
        (js.1.ext).elim
          (finishTsconfig js.2 (resolveP scriptDir tsconfigPath) (dirnameP tsconfigPath)
            js.1 (js.1.compilerOptions.getD []))
          (fun e =>
            if e = "" then
              finishTsconfig js.2 (resolveP scriptDir tsconfigPath) (dirnameP tsconfigPath)
                js.1 (js.1.compilerOptions.getD [])
            else
              (readTsconfig fuel js.2 (resolveP (dirnameP tsconfigPath) e)).bind fun pr =>
                finishTsconfig pr.2 (resolveP scriptDir tsconfigPath) (dirnameP tsconfigPath)
                  js.1 (mergeOptions (pr.1.compilerOptions.getD [])
                    (js.1.compilerOptions.getD [])))) := rfl

/-! `Object.assign` lookup characterization. -/

theorem alookup_append {α : Type} (A B : List (String × α)) (k : String) :
    alookup (A ++ B) k = (alookup A k).or (alookup B k) := by
  induction A with
  | nil => simp [alookup]
  | cons kv A' ih =>
    by_cases h : kv.1 = k
    · simp [alookup, h]
    · simp [alookup, h, ih]

theorem alookup_merge_map (parent child : List (String × String)) (k : String) :
    alookup (parent.map (fun kv =>
      match alookup child kv.1 with
      | some v => (kv.1, v)
      | none => kv)) k
      = (alookup parent k).map (fun v0 => (alookup child k).getD v0) := by
  induction parent with
  | nil => simp [alookup]
  | cons kv P ih =>
    by_cases h : kv.1 = k
    · subst h
      cases hc : alookup child kv.1 with
      | none => simp [alookup, hc]
      | some v => simp [alookup, hc]
    · cases hm : alookup child kv.1 with
      | none => simp [alookup, hm, h, ih]
      | some v => simp [alookup, hm, h, ih]

theorem alookup_merge_filter (parent child : List (String × String)) (k : String) :
    alookup (child.filter (fun kv => (alookup parent kv.1).isNone)) k
      = if alookup parent k = none then alookup child k else none := by
  induction child with
  | nil => simp [alookup]
  | cons kv C ih =>
    cases hp : alookup parent kv.1 with
    | none =>
      by_cases h : kv.1 = k
      · subst h
        simp [List.filter_cons, hp, alookup]
      · simp [List.filter_cons, hp, alookup, h, ih]
    | some w =>
      by_cases h : kv.1 = k
      · subst h
        simp [List.filter_cons, hp, alookup, ih]
      · simp [List.filter_cons, hp, alookup, h, ih]

/-- `Object.assign({}, parent, child)`: a key's value is the child's when
the child declares it, else the parent's. -/
theorem alookup_mergeOptions (parent child : List (String × String)) (k : String) :
    alookup (mergeOptions parent child) k = (alookup child k).or (alookup parent k) := by
  rw [mergeOptions, alookup_append, alookup_merge_map, alookup_merge_filter]
  cases hp : alookup parent k with
  | none =>
    cases hc : alookup child k <;> simp
  | some v0 =>
    cases hc : alookup child k <;> simp [Option.getD]

/-- C4: the extends merge lets every child-declared option override the
parent's and inherits every other parent option, and on the spec's example
the resolved config takes the base's absolute `rootDir` and the child's
absolute `outDir`. -/
theorem readTsconfig_extends_merge :
    (∀ (parent child : List (String × String)) (k : String),
      alookup (mergeOptions parent child) k = (alookup child k).or (alookup parent k))
    ∧ (readTsconfig 2 ⟨extendsDisk, []⟩ "/proj/tsconfig.json").map
        (fun r => (alookup (r.1.compilerOptions.getD []) "rootDir",
          alookup (r.1.compilerOptions.getD []) "outDir"))
      = .ok (some "/src", some "/proj/dist") :=
  ⟨alookup_mergeOptions, rfl⟩

/-- C6: a missing — or unparseable, which the model likewise renders as
absent — configuration document, at the requested path or anywhere along
the extends chain, makes `readTsconfig` throw; the exception is never
caught inside `inlineResources`, so the whole run aborts with the error
and no per-file outcome is produced. -/
theorem readTsconfig_missing_propagates :
    (∀ (fuel : Nat) (st : NodeState) (p : String),
      alookup st.cache (resolveP scriptDir p) = none →
      st.disk (resolveP scriptDir p) = none →
      readTsconfig (fuel + 1) st p = .error ())
    ∧ (∀ (fuel : Nat) (st : NodeState) (p e : String) (cj : Tsconfig) (st1 : NodeState),
      requireTs st (resolveP scriptDir p) = .ok (cj, st1) →
      cj.ext = some e →
      e ≠ "" →
      readTsconfig fuel st1 (resolveP (dirnameP p) e) = .error () →
      readTsconfig (fuel + 1) st p = .error ())
    ∧ (∀ (fuel : Nat) (st : NodeState) (rfs : String → Option String)
        (wOk : String → Bool) (files : List FileEntry) (p : String),
      readTsconfig fuel st (resolveP scriptDir p) = .error () →
      inlineResources fuel st rfs wOk files p = .error ()) := by
  refine ⟨fun fuel st p h1 h2 => ?_,
    fun fuel st p e cj st1 hreq hext he hrec => ?_,
    fun fuel st rfs wOk files p h => ?_⟩
  · rw [readTsconfig_succ, requireTs_missing h1 h2, ebindErr]
  · rw [readTsconfig_succ, hreq, ebindOk]
    simp only [hext, optionElimSome]
    rw [if_neg he, hrec, ebindErr]
  · unfold inlineResources
    rw [h, emapErr]

/-- Witness for C6: an empty disk fails, and the failure aborts the run. -/
theorem readTsconfig_missing_propagates_witness :
    alookup ([] : List (String × Tsconfig)) (resolveP scriptDir "/t.json") = none ∧
      readTsconfig 1 ⟨fun _ => none, []⟩ "/t.json" = .error () ∧
      inlineResources 1 ⟨fun _ => none, []⟩ (fun _ => none) (fun _ => true) [] "/t.json"
        = .error () :=
  ⟨rfl,
    readTsconfig_missing_propagates.1 0 ⟨fun _ => none, []⟩ "/t.json" rfl rfl,
    readTsconfig_missing_propagates.2.2 1 ⟨fun _ => none, []⟩ (fun _ => none)
      (fun _ => true) [] "/t.json" rfl⟩

/-- C9 (counterexample): configuration loading goes through `require`,
which caches modules: after `/t.json` has been resolved once, changing its
on-disk content and resolving again still returns the first (already
processed) document, not one reflecting the current disk. -/
theorem readTsconfig_cache_cex :
    (∃ stA, readTsconfig 1 ⟨cacheDisk0, []⟩ "/t.json"
        = .ok (⟨none, some [("rootDir", "/a")]⟩, stA)
      ∧ ∃ st', readTsconfig 1 ⟨cacheDisk1, stA.cache⟩ "/t.json"
          = .ok (⟨none, some [("rootDir", "/a")]⟩, st'))
    ∧ (∃ st'', readTsconfig 1 ⟨cacheDisk1, []⟩ "/t.json"
        = .ok (⟨none, some [("rootDir", "/b")]⟩, st''))
    ∧ (⟨none, some [("rootDir", "/a")]⟩ : Tsconfig) ≠ ⟨none, some [("rootDir", "/b")]⟩ :=
  ⟨⟨_, rfl, _, rfl⟩, ⟨_, rfl⟩, by decide⟩

/-- C9 (amended): the loader consults the `require` module cache before the
disk, so resolving an already-loaded (extends-free) path yields a document
that is independent of the current on-disk content — it reflects the state
at first load, not a fresh read. -/
theorem readTsconfig_cached_no_reread :
    ∀ (fuel : Nat) (st : NodeState) (p : String) (t : Tsconfig)
      (d2 : String → Option Tsconfig),
      alookup st.cache (resolveP scriptDir p) = some t →
      t.ext = none →
      (readTsconfig (fuel + 1) { st with disk := d2 } p).map Prod.fst
        = (readTsconfig (fuel + 1) st p).map Prod.fst := by
  intro fuel st p t d2 hc hext
  have h1 : requireTs { st with disk := d2 } (resolveP scriptDir p)
      = .ok (t, { st with disk := d2 }) := requireTs_cached hc
  rw [readTsconfig_succ, readTsconfig_succ, h1, requireTs_cached hc, ebindOk, ebindOk]
  simp only [hext, optionElimNone]
  rfl

/-- Witness for the amended C9 at a concrete cached state and changed disk. -/
theorem readTsconfig_cached_no_reread_witness :
    alookup [("/t.json", (⟨none, some [("rootDir", "/a")]⟩ : Tsconfig))]
        (resolveP scriptDir "/t.json") = some ⟨none, some [("rootDir", "/a")]⟩ ∧
      (readTsconfig 1
          ⟨cacheDisk1, [("/t.json", ⟨none, some [("rootDir", "/a")]⟩)]⟩
          "/t.json").map Prod.fst
        = (readTsconfig 1
            ⟨cacheDisk0, [("/t.json", ⟨none, some [("rootDir", "/a")]⟩)]⟩
            "/t.json").map Prod.fst :=
  ⟨rfl,
    readTsconfig_cached_no_reread 0
      ⟨cacheDisk0, [("/t.json", ⟨none, some [("rootDir", "/a")]⟩)]⟩
      "/t.json" ⟨none, some [("rootDir", "/a")]⟩ cacheDisk1 rfl rfl⟩

/-- C7: the tsconfig is resolved once, and every globbed file is processed
by its own caught promise chain: the outcome list is a pure per-file map,
each matched file's outcome is present and computed from that file alone
(so one file's failure cannot disturb its siblings), and `inlineResources`
still completes with `.ok`; concretely, a file whose template resource is
missing is merely marked failed while its sibling is written. -/
theorem inlineResources_isolated_outcomes :
    (∀ (fuel : Nat) (st : NodeState) (rfs : String → Option String)
        (wOk : String → Bool) (files : List FileEntry) (p : String)
        (cfg : Tsconfig) (st' : NodeState),
      readTsconfig fuel st (resolveP scriptDir p) = .ok (cfg, st') →
      inlineResources fuel st rfs wOk files p
        = .ok ((files.filter (fun f =>
            globMatch ((alookup (cfg.compilerOptions.getD []) "outDir").getD "") f.path)).map
          (fun f => (f.path, processFile rfs wOk
            ((alookup (cfg.compilerOptions.getD []) "rootDir").getD "")
            ((alookup (cfg.compilerOptions.getD []) "outDir").getD "") f))))
    ∧ (∀ (fuel : Nat) (st : NodeState) (rfs : String → Option String)
        (wOk : String → Bool) (pre post : List FileEntry) (f : FileEntry) (p : String)
        (cfg : Tsconfig) (st' : NodeState) (L : List (String × FileOutcome)),
      readTsconfig fuel st (resolveP scriptDir p) = .ok (cfg, st') →
      globMatch ((alookup (cfg.compilerOptions.getD []) "outDir").getD "") f.path = true →
      inlineResources fuel st rfs wOk (pre ++ f :: post) p = .ok L →
      (f.path, processFile rfs wOk
        ((alookup (cfg.compilerOptions.getD []) "rootDir").getD "")
        ((alookup (cfg.compilerOptions.getD []) "outDir").getD "") f) ∈ L)
    ∧ inlineResources 1 ⟨orchDisk, []⟩ (fun _ => none) (fun _ => true)
        [⟨"/out/a.js", some "templateUrl: 'x.html'"⟩, ⟨"/out/b.js", some "var x = 1;"⟩]
        "/tsconfig.json"
      = .ok [("/out/a.js", .failed), ("/out/b.js", .written "var x = 1;")] := by
  have hmap : ∀ (fuel : Nat) (st : NodeState) (rfs : String → Option String)
      (wOk : String → Bool) (files : List FileEntry) (p : String)
      (cfg : Tsconfig) (st' : NodeState),
      readTsconfig fuel st (resolveP scriptDir p) = .ok (cfg, st') →
      inlineResources fuel st rfs wOk files p
        = .ok ((files.filter (fun f =>
            globMatch ((alookup (cfg.compilerOptions.getD []) "outDir").getD "") f.path)).map
          (fun f => (f.path, processFile rfs wOk
            ((alookup (cfg.compilerOptions.getD []) "rootDir").getD "")
            ((alookup (cfg.compilerOptions.getD []) "outDir").getD "") f))) := by
    intro fuel st rfs wOk files p cfg st' h
    unfold inlineResources
    rw [h, emapOk]
  refine ⟨hmap, fun fuel st rfs wOk pre post f p cfg st' L h hg hL => ?_, rfl⟩
  rw [hmap fuel st rfs wOk (pre ++ f :: post) p cfg st' h] at hL
  have hLeq := Except.ok.inj hL
  rw [← hLeq]
  refine List.mem_map.mpr ⟨f, List.mem_filter.mpr ⟨?_, hg⟩, rfl⟩
  exact List.mem_append_right pre (List.mem_cons_self f post)

/-- Witness for C7 (parts with hypotheses) at the concrete scenario. -/
theorem inlineResources_isolated_outcomes_witness :
    readTsconfig 1 ⟨orchDisk, []⟩ (resolveP scriptDir "/tsconfig.json")
        = .ok (⟨none, some [("rootDir", "/src"), ("outDir", "/out")]⟩,
          ⟨orchDisk, [("/tsconfig.json", ⟨none, some [("rootDir", "/src"), ("outDir", "/out")]⟩),
            ("/tsconfig.json", ⟨none, some [("rootDir", "/src"), ("outDir", "/out")]⟩)]⟩) ∧
      inlineResources 1 ⟨orchDisk, []⟩ (fun _ => none) (fun _ => true)
          [⟨"/out/a.js", some "templateUrl: 'x.html'"⟩, ⟨"/out/b.js", some "var x = 1;"⟩]
          "/tsconfig.json"
        = .ok (([⟨"/out/a.js", some "templateUrl: 'x.html'"⟩,
              (⟨"/out/b.js", some "var x = 1;"⟩ : FileEntry)].filter (fun f =>
            globMatch ((alookup ((Tsconfig.mk none
              (some [("rootDir", "/src"), ("outDir", "/out")])).compilerOptions.getD [])
                "outDir").getD "") f.path)).map
          (fun f => (f.path, processFile (fun _ => none) (fun _ => true)
            ((alookup ((Tsconfig.mk none
              (some [("rootDir", "/src"), ("outDir", "/out")])).compilerOptions.getD [])
                "rootDir").getD "")
            ((alookup ((Tsconfig.mk none
              (some [("rootDir", "/src"), ("outDir", "/out")])).compilerOptions.getD [])
                "outDir").getD "") f))) :=
  ⟨rfl,
    inlineResources_isolated_outcomes.1 1 ⟨orchDisk, []⟩ (fun _ => none) (fun _ => true)
      [⟨"/out/a.js", some "templateUrl: 'x.html'"⟩, ⟨"/out/b.js", some "var x = 1;"⟩]
      "/tsconfig.json" ⟨none, some [("rootDir", "/src"), ("outDir", "/out")]⟩
      ⟨orchDisk, [("/tsconfig.json", ⟨none, some [("rootDir", "/src"), ("outDir", "/out")]⟩),
        ("/tsconfig.json", ⟨none, some [("rootDir", "/src"), ("outDir", "/out")]⟩)]⟩ rfl⟩

/-- C5: on content where none of the three patterns (`templateUrl: '...'`,
`styleUrls: [...]`, `moduleId: module.id`) matches anywhere,
`inlineResourcesFromString` returns its input unchanged, and hence feeding
the output through the full pipeline a second time yields the same result
as the first run. -/
theorem inlineResourcesFromString_no_match_id
    (content : String) (res : String → String) (fs : String → Option String)
    (ht : anyTemplateMatch content.toList = false)
    (hs : anyStyleMatch content.toList = false)
    (hm : anyModuleIdMatch content.toList = false) :
    inlineResourcesFromString content res fs = .ok content ∧
      (inlineResourcesFromString content res fs).bind
        (fun c2 => inlineResourcesFromString c2 res fs) = .ok content := by
  have h1 : inlineResourcesFromString content res fs = .ok content := by
    simp only [inlineResourcesFromString, inlineTemplate_id ht, ebindOk,
      inlineStyle_id hs, emapOk, removeModuleId_id hm]
  refine ⟨h1, ?_⟩
  rw [h1]
  exact h1

/-- Witness for C5 at concrete match-free content. -/
theorem inlineResourcesFromString_no_match_id_witness :
    anyTemplateMatch "var x = 1;".toList = false ∧
      anyStyleMatch "var x = 1;".toList = false ∧
      anyModuleIdMatch "var x = 1;".toList = false ∧
      inlineResourcesFromString "var x = 1;" (fun u => u) (fun _ => none)
        = .ok "var x = 1;" :=
  ⟨by decide, by decide, by decide,
    (inlineResourcesFromString_no_match_id "var x = 1;" (fun u => u) (fun _ => none)
      (by decide) (by decide) (by decide)).1⟩

end InlineRes
